import Mathlib

/-!
# Text-file party storage (`src/char/partydb_txt.c`)

A shallow embedding of the party database back end of the character server:
the record codec (`mmo_party_fromstr`, `mmo_party_tostr`), the load and
rewrite cycle (`party_db_txt_init`, `party_db_txt_sync`) and the CRUD
operations, followed by theorems about them.

Conventions of the embedding.

* A C string is the list of its bytes before the terminating NUL; a byte is a
  natural number.  A `char*` that points into a string is the suffix of the
  list that starts at the pointed byte, a NULL pointer is `none`.
* A C `int` is an `Int` in the range `INT_MIN .. INT_MAX`; arithmetic that can
  leave the range is reduced with `wrap32` (32-bit two's complement), and so
  is the value `%d` reads from a numeral outside the range.
* An operation that dereferences a NULL `db->parties` has no result (`none`).
* The headers `common/mmo.h` and `common/db.h` are not among the sources; the
  records and the keyed map are modelled from the specification, with the
  numeric members of a record as C ints.
-/

namespace PartyDB

/-! ## C integers -/

/-- Largest value of a C `int`. -/
def INT_MAX : Int := 2147483647

/-- Smallest value of a C `int`. -/
def INT_MIN : Int := -2147483648

/-- Membership in the range of a C `int`. -/
def is_int (n : Int) : Prop := INT_MIN ≤ n ∧ n ≤ INT_MAX

instance (n : Int) : Decidable (is_int n) := by
  unfold is_int; exact inferInstance

/-- Reduction of an integer to 32-bit two's complement. -/
def wrap32 (n : Int) : Int := (n + 2147483648) % 4294967296 - 2147483648

/-! ## Bytes and the `<ctype.h>` / `<string.h>` helpers -/

/-- Horizontal tab. -/
def TAB : Nat := 9
/-- Line feed. -/
def LF : Nat := 10
/-- Carriage return. -/
def CR : Nat := 13
/-- The comma. -/
def COMMA : Nat := 44
/-- The minus sign. -/
def MINUS : Nat := 45
/-- The plus sign. -/
def PLUS : Nat := 43
/-- The percent sign. -/
def PERCENT : Nat := 37

/-- Bytes of a string literal. -/
def bytes (s : String) : List Nat := s.toList.map Char.toNat

/-- The C locale's `isspace`: space, `\t`, `\n`, `\v`, `\f`, `\r`. -/
def isspace (c : Nat) : Bool := c == 32 || (decide (9 ≤ c) && decide (c ≤ 13))

/-- The C locale's `isdigit`. -/
def isdigit (c : Nat) : Bool := decide (48 ≤ c) && decide (c ≤ 57)

/-- The C locale's `tolower`. -/
def tolower (c : Nat) : Nat := if 65 ≤ c ∧ c ≤ 90 then c + 32 else c

/-- Sign of `strcmp(s, t)`: bytewise comparison of two C strings. -/
def strcmp : List Nat → List Nat → Int
  | [], [] => 0
  | [], _ :: _ => -1
  | _ :: _, [] => 1
  | a :: s, b :: t => if a = b then strcmp s t else if a < b then -1 else 1

/-- Sign of `stricmp(s, t)`: as `strcmp`, on the lower-cased bytes. -/
def stricmp : List Nat → List Nat → Int
  | [], [] => 0
  | [], _ :: _ => -1
  | _ :: _, [] => 1
  | a :: s, b :: t =>
    if tolower a = tolower b then stricmp s t
    else if tolower a < tolower b then -1 else 1

/-- `strchr(s, c)`: the suffix of `s` that starts at the first `c`, or NULL. -/
def strchr : List Nat → Nat → Option (List Nat)
  | [], _ => none
  | a :: s, c => if a = c then some (a :: s) else strchr s c

/-- `safestrncpy(dst, src, n)`: at most `n - 1` bytes are copied. -/
def safestrncpy (src : List Nat) (n : Nat) : List Nat := src.take (n - 1)

/-! ## `sscanf` directives -/

/-- A white-space directive of a format: skips any run of white space. -/
def skip_ws : List Nat → List Nat
  | [] => []
  | c :: s => if isspace c then skip_ws s else c :: s

/-- Reads a run of decimal digits onto the accumulator;
returns the value and the unread input. -/
def scan_digits : List Nat → Nat → Nat × List Nat
  | [], acc => (acc, [])
  | c :: s, acc => if isdigit c then scan_digits s (acc * 10 + (c - 48)) else (acc, c :: s)

/-- The digits of an unsigned decimal field: at least one is required. -/
def scan_unsigned : List Nat → Option (Nat × List Nat)
  | [] => none
  | c :: s => if isdigit c then some (scan_digits (c :: s) 0) else none

/-- The `%d` directive: skips white space, reads an optional sign and at least
one digit; the value is stored into an `int`.  Returns the value and the
unread input, `none` on a matching failure or at the end of the input. -/
def scan_int (s : List Nat) : Option (Int × List Nat) :=
  match skip_ws s with
  | [] => none
  | c :: t =>
    if c = MINUS then
      (scan_unsigned t).map (fun r => (wrap32 (-(r.1 : Int)), r.2))
    else if c = PLUS then
      (scan_unsigned t).map (fun r => (wrap32 (r.1 : Int), r.2))
    else
      (scan_unsigned (c :: t)).map (fun r => (wrap32 (r.1 : Int), r.2))

/-- Reads at most `w` bytes that are not a tab. -/
def scan_not_tab : Nat → List Nat → List Nat × List Nat
  | 0, s => ([], s)
  | _, [] => ([], [])
  | w + 1, c :: s =>
    if c = TAB then ([], c :: s)
    else ((c :: (scan_not_tab w s).1), (scan_not_tab w s).2)

/-- The `%255[^\t]` directive: a non-empty run of at most `w` bytes other than
a tab; no white space is skipped. -/
def scan_set_not_tab (w : Nat) (s : List Nat) : Option (List Nat × List Nat) :=
  match scan_not_tab w s with
  | ([], _) => none
  | (c :: n, r) => some (c :: n, r)

/-- An ordinary character of a format: the next input byte must be `c`. -/
def scan_char (c : Nat) : List Nat → Option (List Nat)
  | [] => none
  | a :: s => if a = c then some s else none

/-- A run of ordinary characters of a format. -/
def scan_lit : List Nat → List Nat → Option (List Nat)
  | [], s => some s
  | c :: cs, s => (scan_char c s).bind (scan_lit cs)

/-! ## `sprintf` directives -/

/-- Decimal digits of a natural number, most significant first. -/
def print_nat_fuel : Nat → Nat → List Nat
  | 0, _ => []
  | f + 1, n => if n < 10 then [48 + n] else print_nat_fuel f (n / 10) ++ [48 + n % 10]

/-- Decimal digits of a natural number. -/
def print_nat (n : Nat) : List Nat := print_nat_fuel (n + 1) n

/-- The `%d` directive of `sprintf`. -/
def print_int (n : Int) : List Nat :=
  if n < 0 then MINUS :: print_nat (-n).toNat else print_nat n.toNat

/-! ## Data model -/

/-- Modelled from the spec: the number of member slots of a party (the
constant `MAX_PARTY` of `common/mmo.h`, which is not part of the sources at
hand); the spec gives 12. -/
def MAX_PARTY : Nat := 12

/-- Modelled from the spec: the size of a name buffer (the constant
`NAME_LENGTH` of `common/mmo.h`): 23 visible characters and the terminator. -/
def NAME_LENGTH : Nat := 24

/-- First party id handed out by a new database. -/
def START_PARTY_NUM : Int := 1

/-- Modelled from the spec: a member slot, `struct party_member` of
`common/mmo.h`, with the members the text back end reads and writes. -/
structure party_member where
  account_id : Int
  char_id : Int
  leader : Int
  deriving DecidableEq, Repr

/-- Modelled from the spec: a party record, `struct party` of `common/mmo.h`,
with the members the text back end reads and writes.  `member` is the array
of `MAX_PARTY` slots. -/
structure party where
  party_id : Int
  name : List Nat
  exp : Int
  item : Int
  member : List party_member
  deriving DecidableEq, Repr

/-- Modelled from the spec: `struct party_data` of the character server, whose
first member is the party record.  Its other members are neither read nor
written one by one in this file and are left out. -/
structure party_data where
  party : party
  deriving DecidableEq, Repr

/-- A slot after `memset(p, 0, sizeof(*p))`. -/
def party_member.zero : party_member := ⟨0, 0, 0⟩

/-! ## Record codec -/

/-- The `sscanf(str, "%d\t%255[^\t]\t%d,%d\t", ...)` call of
`mmo_party_fromstr`; a result stands for the return value 4. -/
def scan_header (str : List Nat) : Option (Int × List Nat × Int × Int) :=
  (scan_int str).bind fun r1 =>
  (scan_set_not_tab 255 (skip_ws r1.2)).bind fun r2 =>
  (scan_int (skip_ws r2.2)).bind fun r3 =>
  (scan_char COMMA r3.2).bind fun s4 =>
  (scan_int s4).bind fun r5 =>
  some (r1.1, r2.1, r3.1, r5.1)

/-- The `sscanf(str + 1, "%d,%d,%d\t", ...)` call of `mmo_party_fromstr`;
a result stands for the return value 3. -/
def scan_member (s : List Nat) : Option (Int × Int × Int) :=
  (scan_int s).bind fun r1 =>
  (scan_char COMMA r1.2).bind fun s2 =>
  (scan_int s2).bind fun r3 =>
  (scan_char COMMA r3.2).bind fun s4 =>
  (scan_int s4).bind fun r5 =>
  some (r1.1, r3.1, r5.1)

/-- The loop `for( j = 0; j < 3 && str != NULL; j++ ) str = strchr(str + 1, '\t')`
with `j` iterations left. -/
def skip_tabs : Nat → Option (List Nat) → Option (List Nat)
  | 0, str => str
  | _ + 1, none => none
  | j + 1, some s => skip_tabs j (strchr s.tail TAB)

/-- The member loop of `mmo_party_fromstr` with `n` iterations left: the slots
read, or `none` when the function returns `false`. -/
def fromstr_members : Nat → Option (List Nat) → Option (List party_member)
  | 0, _ => some []
  | _ + 1, none => none
  | n + 1, some s =>
    match scan_member s.tail with
    | none => none
    | some (account_id, char_id, leader) =>
      (fromstr_members n (strchr s.tail TAB)).map fun ms =>
        { account_id := account_id, char_id := char_id,
          leader := if leader ≠ 0 then 1 else 0 } :: ms

/-- Decoder of one line: `mmo_party_fromstr`.  `some p` is the return value
`true` with the record written to `*p`; `none` is the return value `false`. -/
def mmo_party_fromstr (str : List Nat) : Option party :=
  match scan_header str with
  | none => none
  | some (party_id, name, exp, item) =>
    (fromstr_members MAX_PARTY (skip_tabs 3 (some str))).map fun ms =>
      { party_id := party_id,
        name := safestrncpy name NAME_LENGTH,
        exp := if exp ≠ 0 then 1 else 0,
        item := item,
        member := ms }

/-- The member loop of `mmo_party_tostr` with `n` iterations left, on the
slots from the current one on. -/
def tostr_members : Nat → List party_member → List Nat
  | 0, _ => []
  | n + 1, ms =>
    let m := ms.headD party_member.zero
    print_int m.account_id ++ COMMA :: print_int m.char_id ++ COMMA ::
      print_int m.leader ++ TAB :: tostr_members n ms.tail

/-- Encoder of one record: the string `mmo_party_tostr` writes to `str`
(it always returns `true`). -/
def mmo_party_tostr (p : party) : List Nat :=
  print_int p.party_id ++ TAB :: p.name ++ TAB :: print_int p.exp ++ COMMA ::
    print_int p.item ++ TAB :: tostr_members MAX_PARTY p.member

/-! ## The indexed store -/

/-- Modelled from the spec: the keyed map `DBMap` of `common/db.h` (not part
of the sources at hand), holding one record per integer key.  The list gives
the iteration order; no key occurs twice. -/
abbrev DBMap := List (Int × party_data)

/-- Modelled from the spec: `idb_alloc`, a new empty map. -/
def idb_alloc : DBMap := []

/-- Modelled from the spec: `db_clear`, which drops all entries. -/
def db_clear (_ : DBMap) : DBMap := []

/-- Modelled from the spec: `idb_get`, the record stored under a key or NULL. -/
def idb_get : DBMap → Int → Option party_data
  | [], _ => none
  | (k, v) :: m, key => if k = key then some v else idb_get m key

/-- Modelled from the spec: `idb_put`, insert or overwrite. -/
def idb_put : DBMap → Int → party_data → DBMap
  | [], key, data => [(key, data)]
  | (k, v) :: m, key, data =>
    if k = key then (key, data) :: m else (k, v) :: idb_put m key data

/-- Modelled from the spec: `idb_remove`, which removes the entry of a key
when there is one. -/
def idb_remove : DBMap → Int → DBMap
  | [], _ => []
  | (k, v) :: m, key => if k = key then idb_remove m key else (k, v) :: idb_remove m key

/-- Effect of `memcpy(tmp, p, ...)` on the map when `tmp` is the record that
`idb_get` returned for `key`: that record is overwritten in place. -/
def db_overwrite : DBMap → Int → party_data → DBMap
  | [], _, _ => []
  | (k, v) :: m, key, data =>
    if k = key then (k, data) :: m else (k, v) :: db_overwrite m key data

/-- Modelled from the spec: the records an iterator of the map yields, in
iteration order. -/
def db_iterate (m : DBMap) : List party_data := m.map Prod.snd

/-- Keys of the map. -/
def db_keys (m : DBMap) : List Int := m.map Prod.fst

/-- State of the text back end, `struct PartyDB_TXT`.  `parties` is `none`
while the pointer is NULL.  The owner is represented by the number of
`request_sync` calls it has received; the backing file is an argument of the
operations that open it. -/
structure PartyDB_TXT where
  parties : Option DBMap
  next_party_id : Int
  dirty : Bool
  case_sensitive : Bool
  owner_sync_requests : Nat
  deriving DecidableEq, Repr

/-- Constructor `party_db_txt`: the state of a new back end. -/
def party_db_txt : PartyDB_TXT :=
  { parties := none, next_party_id := START_PARTY_NUM, dirty := false,
    case_sensitive := false, owner_sync_requests := 0 }

/-! ## Loading -/

/-- Bytes `fgets` stores when the buffer has room for `n` more: it stops after
a line feed, when the room is used up, or at the end of the file.  Returns
the bytes and the unread rest of the file. -/
def fgets_buf : Nat → List Nat → List Nat × List Nat
  | 0, fp => ([], fp)
  | _ + 1, [] => ([], [])
  | n + 1, c :: fp =>
    if c = LF then ([c], fp)
    else (c :: (fgets_buf n fp).1, (fgets_buf n fp).2)

/-- The call `fgets(line, size, fp)`: NULL at the end of the file. -/
def fgets (size : Nat) (fp : List Nat) : Option (List Nat × List Nat) :=
  match fp with
  | [] => none
  | _ :: _ => some (fgets_buf (size - 1) fp)

/-- The C string held by a buffer: its bytes before the first NUL. -/
def c_str : List Nat → List Nat
  | [] => []
  | c :: s => if c = 0 then [] else c :: c_str s

/-- The call `sscanf(line, "%d\t%%newid%%%n", &party_id, &n)` with `n = 0`
before it.  `none`: the return value is not 1.  Otherwise the value of
`party_id` and of `n`, which is 0 unless `%n` was reached. -/
def scan_newid (line : List Nat) : Option (Int × Nat) :=
  match scan_int line with
  | none => none
  | some (party_id, s1) =>
    match (((scan_char PERCENT (skip_ws (skip_ws s1))).bind
        (scan_lit [110, 101, 119, 105, 100])).bind
        fun s => scan_char PERCENT (skip_ws s)) with
    | none => some (party_id, 0)
    | some rest => some (party_id, line.length - rest.length)

/-- The test of `party_db_txt_init` for the auto-increment line: the id the
line carries when the test succeeds. -/
def newid_line (line : List Nat) : Option Int :=
  match scan_newid line with
  | none => none
  | some (party_id, n) =>
    if 0 < n ∧ (line.getD n 0 = LF ∨ line.getD n 0 = CR) then some party_id else none

/-- Size of the line buffer of `party_db_txt_init`. -/
def LINE_SIZE : Nat := 8192

/-- The body of the loop of `party_db_txt_init` on one line: the map and
`next_party_id` after it. -/
def init_line (line : List Nat) (parties : DBMap) (next_party_id : Int) : DBMap × Int :=
  match newid_line line with
  | some party_id =>
    (parties, if party_id > next_party_id then party_id else next_party_id)
  | none =>
    match mmo_party_fromstr line with
    | none => (parties, next_party_id)
    | some p =>
      (idb_put parties p.party_id { party := p },
        if p.party_id ≥ next_party_id then wrap32 (p.party_id + 1) else next_party_id)

/-- The `while( fgets(...) != NULL )` loop of `party_db_txt_init`, run for at
most `fuel` lines, on the unread file, the map and `next_party_id`. -/
def init_loop : Nat → List Nat → DBMap → Int → DBMap × Int
  | 0, _, parties, next_party_id => (parties, next_party_id)
  | fuel + 1, fp, parties, next_party_id =>
    match fgets LINE_SIZE fp with
    | none => (parties, next_party_id)
    | some (buf, fp1) =>
      init_loop fuel fp1 (init_line (c_str buf) parties next_party_id).1
        (init_line (c_str buf) parties next_party_id).2

/-- Loader `party_db_txt_init`.  `file` is the content of the data file, or
`none` when `fopen` fails.  Every line consumes at least one byte, so the
length of the file bounds the number of iterations. -/
def party_db_txt_init (db : PartyDB_TXT) (file : Option (List Nat)) : Bool × PartyDB_TXT :=
  let parties := db_clear (match db.parties with
    | none => idb_alloc
    | some m => m)
  match file with
  | none => (false, { db with parties := some parties })
  | some fp =>
    let r := init_loop fp.length fp parties db.next_party_id
    (true, { db with parties := some r.1, next_party_id := r.2, dirty := false })

/-! ## Rewriting -/

/-- The record lines `party_db_txt_sync` writes, one
`fprintf(fp, "%s\n", buf)` per record. -/
def sync_records : List party_data → List Nat
  | [] => []
  | p :: ps => mmo_party_tostr p.party ++ LF :: sync_records ps

/-- The line `fprintf(fp, "%d\t%%newid%%\n", next_party_id)` writes. -/
def sync_newid (next_party_id : Int) : List Nat :=
  print_int next_party_id ++ [TAB, PERCENT, 110, 101, 119, 105, 100, PERCENT, LF]

/-- Writer `party_db_txt_sync`.  `lock_ok` tells whether `lock_fopen`
succeeds.  The result is the return value, the state and the content
committed to the data file (`none`: nothing is written). -/
def party_db_txt_sync (db : PartyDB_TXT) (lock_ok : Bool) :
    Option (Bool × PartyDB_TXT × Option (List Nat)) :=
  if lock_ok = false then some (false, db, none)
  else
    match db.parties with
    | none => none
    | some parties =>
      some (true, { db with dirty := false },
        some (sync_records (db_iterate parties) ++ sync_newid db.next_party_id))

/-! ## CRUD operations -/

/-- The id `party_db_txt_create` decides to assign:
`( p->party.party_id != -1 ) ? p->party.party_id : db->next_party_id`. -/
def create_party_id (db : PartyDB_TXT) (p : party_data) : Int :=
  if p.party.party_id ≠ -1 then p.party.party_id else db.next_party_id

/-- Operation `party_db_txt_create`: the return value, the state and the
record `*p` after the call. -/
def party_db_txt_create (db : PartyDB_TXT) (p : party_data) :
    Option (Bool × PartyDB_TXT × party_data) :=
  match db.parties with
  | none => none
  | some parties =>
    let party_id := create_party_id db p
    match idb_get parties party_id with
    | some _ => some (false, db, p)
    | none =>
      let tmp : party_data := { party := { p.party with party_id := party_id } }
      some (true,
        { db with
          parties := some (idb_put parties party_id tmp),
          next_party_id :=
            if party_id ≥ db.next_party_id then wrap32 (party_id + 1)
            else db.next_party_id,
          dirty := true,
          owner_sync_requests := db.owner_sync_requests + 1 },
        tmp)

/-- Operation `party_db_txt_remove`: the return value and the state. -/
def party_db_txt_remove (db : PartyDB_TXT) (party_id : Int) :
    Option (Bool × PartyDB_TXT) :=
  match db.parties with
  | none => none
  | some parties =>
    some (true,
      { db with
        parties := some (idb_remove parties party_id),
        dirty := true,
        owner_sync_requests := db.owner_sync_requests + 1 })

/-- Operation `party_db_txt_save`: the return value and the state.  The
arguments `flag` and `index` are not used by the text back end. -/
def party_db_txt_save (db : PartyDB_TXT) (p : party_data) : Option (Bool × PartyDB_TXT) :=
  match db.parties with
  | none => none
  | some parties =>
    match idb_get parties p.party.party_id with
    | none => some (false, db)
    | some _ =>
      some (true,
        { db with
          parties := some (db_overwrite parties p.party.party_id p),
          dirty := true,
          owner_sync_requests := db.owner_sync_requests + 1 })

/-- Operation `party_db_txt_load`: the return value and the record `*p` after
the call. -/
def party_db_txt_load (db : PartyDB_TXT) (p : party_data) (party_id : Int) :
    Option (Bool × party_data) :=
  match db.parties with
  | none => none
  | some parties =>
    match idb_get parties party_id with
    | none => some (false, p)
    | some tmp => some (true, tmp)

/-- The comparison `party_db_txt_name2id` selects. -/
def name_compare (case_sensitive : Bool) : List Nat → List Nat → Int :=
  if case_sensitive then strcmp else stricmp

/-- The search loop of `party_db_txt_name2id` over the records an iterator
yields: the record at which the loop breaks, NULL when it runs to the end. -/
def name2id_loop (compare : List Nat → List Nat → Int) (name : List Nat) :
    List party_data → Option party_data
  | [] => none
  | tmp :: rest =>
    if compare name tmp.party.name = 0 then some tmp
    else name2id_loop compare name rest

/-- Operation `party_db_txt_name2id`: `some id` is the return value `true`
with `id` written to `*party_id`, `none` is the return value `false`. -/
def party_db_txt_name2id (db : PartyDB_TXT) (name : List Nat) : Option (Option Int) :=
  match db.parties with
  | none => none
  | some parties =>
    match name2id_loop (name_compare db.case_sensitive) name (db_iterate parties) with
    | none => some none
    | some tmp => some (some tmp.party.party_id)

/-! ## Notions used by the theorems -/

/-- Value of a run of decimal digits, as `scan_digits` accumulates it. -/
def digits_value (ds : List Nat) (acc : Nat) : Nat :=
  ds.foldl (fun a c => a * 10 + (c - 48)) acc

/-- The input does not continue with a decimal digit. -/
def StopsNumber (rest : List Nat) : Prop := ∀ c t, rest = c :: t → isdigit c = false

/-- Bytes that `%d` writes: decimal digits and the minus sign. -/
def is_number_byte (c : Nat) : Bool := isdigit c || c == MINUS

/-- Bytes of a member group: those of `%d` and the comma. -/
def is_group_byte (c : Nat) : Bool := is_number_byte c || c == COMMA

/-- A member slot as the data model describes it: the ids are C ints and
`leader` is 0 or 1. -/
def valid_member (m : party_member) : Prop :=
  is_int m.account_id ∧ is_int m.char_id ∧ (m.leader = 0 ∨ m.leader = 1)

instance (m : party_member) : Decidable (valid_member m) := by
  unfold valid_member; exact inferInstance

/-- A party record as the data model describes it: the id and the item flag
are C ints, the name is a non-empty C string of at most 23 bytes without tab
or line break, `exp` is 0 or 1 and there are exactly `MAX_PARTY` member
slots, each a valid one. -/
def valid_record (p : party) : Prop :=
  is_int p.party_id ∧ p.name ≠ [] ∧ p.name.length ≤ 23 ∧
  (∀ c ∈ p.name, c ≠ 0 ∧ c ≠ TAB ∧ c ≠ LF ∧ c ≠ CR) ∧
  (p.exp = 0 ∨ p.exp = 1) ∧ is_int p.item ∧
  p.member.length = MAX_PARTY ∧ ∀ m ∈ p.member, valid_member m

instance (p : party) : Decidable (valid_record p) := by
  unfold valid_record; exact inferInstance

/-- The name does not begin with a white-space byte. -/
def plain_start (name : List Nat) : Prop := isspace (name.headD 0) = false

instance (name : List Nat) : Decidable (plain_start name) := by
  unfold plain_start; exact inferInstance

/-- A record that meets the description of a valid record and whose name
begins with a space. -/
def party_leading_space : party :=
  { party_id := 1, name := bytes " A", exp := 0, item := 0,
    member := List.replicate MAX_PARTY party_member.zero }

/-- Equality of names as the lookup is described: exact when
`case_sensitive` holds, up to the case of letters otherwise. -/
def names_equal (case_sensitive : Bool) (a b : List Nat) : Prop :=
  if case_sensitive then a = b else a.map tolower = b.map tolower

instance (cs : Bool) (a b : List Nat) : Decidable (names_equal cs a b) := by
  unfold names_equal; exact inferInstance

/-- An empty store as `party_db_txt_init` leaves it on an empty file. -/
def empty_store : PartyDB_TXT := (party_db_txt_init party_db_txt (some [])).2

/-- A record with all slots empty. -/
def blank_party (party_id : Int) (name : List Nat) : party_data :=
  { party := { party_id := party_id, name := name, exp := 0, item := 0,
               member := List.replicate MAX_PARTY party_member.zero } }

/-- One call of an operation of the interface that changes or keeps the
state.  The records passed in are C structures: their id is a C int. -/
inductive Step : PartyDB_TXT → PartyDB_TXT → Prop
  | init (db : PartyDB_TXT) (file : Option (List Nat)) :
      Step db (party_db_txt_init db file).2
  | create (db : PartyDB_TXT) (p : party_data) (r : Bool) (db1 : PartyDB_TXT)
      (p1 : party_data) :
      is_int p.party.party_id → party_db_txt_create db p = some (r, db1, p1) → Step db db1
  | save (db : PartyDB_TXT) (p : party_data) (r : Bool) (db1 : PartyDB_TXT) :
      party_db_txt_save db p = some (r, db1) → Step db db1
  | remove (db : PartyDB_TXT) (party_id : Int) (r : Bool) (db1 : PartyDB_TXT) :
      party_db_txt_remove db party_id = some (r, db1) → Step db db1
  | sync (db : PartyDB_TXT) (lock_ok : Bool) (r : Bool) (db1 : PartyDB_TXT)
      (out : Option (List Nat)) :
      party_db_txt_sync db lock_ok = some (r, db1, out) → Step db db1

/-- States reachable from a newly constructed back end. -/
inductive Reachable : PartyDB_TXT → Prop
  | fresh : Reachable party_db_txt
  | step (db db1 : PartyDB_TXT) : Reachable db → Step db db1 → Reachable db1

/-- The watermark property: `next_party_id` exceeds the id of every record
in the store. -/
def watermark_above (db : PartyDB_TXT) : Prop :=
  ∀ parties, db.parties = some parties →
    ∀ r ∈ db_iterate parties, r.party.party_id < db.next_party_id

/-- No record with the largest C int as its key is in the store. -/
def below_int_max (db : PartyDB_TXT) : Prop :=
  ∀ parties, db.parties = some parties → INT_MAX ∉ db_keys parties

/-- States reachable from a newly constructed back end by operations after
each of which no record with id `INT_MAX` is in the store. -/
inductive ReachableBelowMax : PartyDB_TXT → Prop
  | fresh : ReachableBelowMax party_db_txt
  | step (db db1 : PartyDB_TXT) :
      ReachableBelowMax db → Step db db1 → below_int_max db1 → ReachableBelowMax db1

/-- The state after loading an empty file and creating a party with id
`INT_MAX`. -/
def store_at_int_max : PartyDB_TXT :=
  { parties := some [(2147483647, blank_party 2147483647 (bytes "A"))],
    next_party_id := -2147483648, dirty := true, case_sensitive := false,
    owner_sync_requests := 1 }

/-- A store that holds the party "Alpha" under id 1. -/
def store_alpha : PartyDB_TXT :=
  { parties := some [(1, blank_party 1 (bytes "Alpha"))], next_party_id := 2,
    dirty := false, case_sensitive := false, owner_sync_requests := 0 }

/-- Typing and key invariant of a store: the watermark is a C int, every key
is a C int, equals the id of the record stored under it and lies below the
watermark. -/
def store_inv (m : DBMap) (n : Int) : Prop :=
  is_int n ∧ ∀ e ∈ m, is_int e.1 ∧ e.2.party.party_id = e.1 ∧ e.1 < n

/-- A line of a text file that fits the line buffer of `party_db_txt_init`:
it ends with its line feed, has no other line feed and at most
`LINE_SIZE - 1` bytes. -/
def is_line (l : List Nat) : Prop :=
  ∃ body, l = body ++ [LF] ∧ LF ∉ body ∧ l.length ≤ LINE_SIZE - 1

/-- The loop body of `party_db_txt_init` run over a list of lines. -/
def init_lines : List (List Nat) → DBMap → Int → DBMap × Int
  | [], parties, next_party_id => (parties, next_party_id)
  | l :: ls, parties, next_party_id =>
    init_lines ls (init_line (c_str l) parties next_party_id).1
      (init_line (c_str l) parties next_party_id).2

/-- The line is a record line: it is not the auto-increment line and
`mmo_party_fromstr` decodes it to `r`. -/
def decodes_to (l : List Nat) (r : party) : Prop :=
  newid_line (c_str l) = none ∧ mmo_party_fromstr (c_str l) = some r

/-- The map entries of a list of decoded records. -/
def entries_of (rs : List party) : DBMap := rs.map fun r => (r.party_id, { party := r })

/-- A record passed to create or save whose fields can be written to the
file and read back: a valid record whose name does not begin with white
space. -/
def valid_input (p : party_data) : Prop :=
  valid_record p.party ∧ plain_start p.party.name

instance (p : party_data) : Decidable (valid_input p) := by
  unfold valid_input; exact inferInstance

/-- States reached from the empty store by create, save and remove. -/
inductive ReachableCrud : PartyDB_TXT → Prop
  | empty : ReachableCrud empty_store
  | create (db : PartyDB_TXT) (p : party_data) (r : Bool) (db1 : PartyDB_TXT)
      (p1 : party_data) :
      ReachableCrud db → party_db_txt_create db p = some (r, db1, p1) → ReachableCrud db1
  | save (db : PartyDB_TXT) (p : party_data) (r : Bool) (db1 : PartyDB_TXT) :
      ReachableCrud db → party_db_txt_save db p = some (r, db1) → ReachableCrud db1
  | remove (db : PartyDB_TXT) (party_id : Int) (r : Bool) (db1 : PartyDB_TXT) :
      ReachableCrud db → party_db_txt_remove db party_id = some (r, db1) → ReachableCrud db1

/-- States reached from the empty store by create and save of records that
satisfy `valid_input`, and remove. -/
inductive ReachableCrudValid : PartyDB_TXT → Prop
  | empty : ReachableCrudValid empty_store
  | create (db : PartyDB_TXT) (p : party_data) (r : Bool) (db1 : PartyDB_TXT)
      (p1 : party_data) :
      ReachableCrudValid db → valid_input p →
      party_db_txt_create db p = some (r, db1, p1) → ReachableCrudValid db1
  | save (db : PartyDB_TXT) (p : party_data) (r : Bool) (db1 : PartyDB_TXT) :
      ReachableCrudValid db → valid_input p →
      party_db_txt_save db p = some (r, db1) → ReachableCrudValid db1
  | remove (db : PartyDB_TXT) (party_id : Int) (r : Bool) (db1 : PartyDB_TXT) :
      ReachableCrudValid db →
      party_db_txt_remove db party_id = some (r, db1) → ReachableCrudValid db1

/-- Invariant of the states of `ReachableCrudValid`: the watermark is a C
int, the keys are distinct, and every key is the id of its record, which
satisfies `valid_input`. -/
def crud_inv (db : PartyDB_TXT) : Prop :=
  is_int db.next_party_id ∧ ∃ m, db.parties = some m ∧ (db_keys m).Nodup ∧
    ∀ e ∈ m, e.2.party.party_id = e.1 ∧ valid_record e.2.party ∧ plain_start e.2.party.name

/-- The store after creating the party named " A" in the empty store. -/
def store_leading_space : PartyDB_TXT :=
  { parties := some [(1, { party := party_leading_space })], next_party_id := 2,
    dirty := true, case_sensitive := false, owner_sync_requests := 1 }

/-- The file `party_db_txt_sync` writes for `store_leading_space`. -/
def file_leading_space : List Nat :=
  bytes "1\t A\t0,0\t0,0,0\t0,0,0\t0,0,0\t0,0,0\t0,0,0\t0,0,0\t0,0,0\t0,0,0\t0,0,0\t0,0,0\t0,0,0\t0,0,0\t\n2\t%newid%\n"

/-- The store after creating the party "Alpha" in the empty store. -/
def store_alpha_created : PartyDB_TXT :=
  { parties := some [(1, blank_party 1 (bytes "Alpha"))], next_party_id := 2,
    dirty := true, case_sensitive := false, owner_sync_requests := 1 }

/-! ## Notions used by the theorems on the line format -/

/-- Text of one member group in the file format:
`account_id,char_id,leader` and a tab. -/
def member_text (m : party_member) : List Nat :=
  print_int m.account_id ++ COMMA :: print_int m.char_id ++ COMMA ::
    print_int m.leader ++ [TAB]

/-- Text of the three leading fields in the file format:
`id TAB name TAB exp,item TAB`. -/
def header_text (party_id : Int) (name : List Nat) (exp item : Int) : List Nat :=
  print_int party_id ++ TAB :: name ++ TAB :: print_int exp ++ COMMA ::
    print_int item ++ [TAB]

/-- A line in the file format (without its line feed): the leading fields
followed by one group per listed slot, in order. -/
def line_text (party_id : Int) (name : List Nat) (exp item : Int)
    (ms : List party_member) : List Nat :=
  header_text party_id name exp item ++ (ms.map member_text).flatten

/-- The first `n` slots of the member array, in order. -/
def slots : Nat → List party_member → List party_member
  | 0, _ => []
  | n + 1, ms => ms.headD party_member.zero :: slots n ms.tail

/-- A slot as the decoder stores it: `leader` reduced to 0 or 1. -/
def normal_member (m : party_member) : party_member :=
  { account_id := m.account_id, char_id := m.char_id,
    leader := if m.leader ≠ 0 then 1 else 0 }

/-- The numbers of a slot are C ints. -/
def int_member (m : party_member) : Prop :=
  is_int m.account_id ∧ is_int m.char_id ∧ is_int m.leader

instance (m : party_member) : Decidable (int_member m) := by
  unfold int_member; exact inferInstance

/-- The line written by `party_db_txt_sync` for the store of one party named
"%newid%". -/
def newid_named_party : party :=
  { party_id := 3, name := bytes "%newid%", exp := 0, item := 0,
    member := List.replicate MAX_PARTY party_member.zero }

/-- The part of the line of a record that ends after its first `k` member
groups. -/
def tostr_cut (p : party) (k : Nat) : List Nat :=
  header_text p.party_id p.name p.exp p.item ++ tostr_members k p.member

/-! ## Notions used by the theorems on the watermark across operations -/

/-- A record that fits the C structure: its numbers are C ints and its name
is shorter than the name buffer. -/
def c_typed (p : party) : Prop :=
  is_int p.party_id ∧ p.name.length < NAME_LENGTH ∧ is_int p.exp ∧ is_int p.item ∧
  ∀ m ∈ p.member, int_member m

instance (p : party) : Decidable (c_typed p) := by
  unfold c_typed; exact inferInstance

/-- A data file whose only record line carries the id `INT_MAX`. -/
def file_int_max : List Nat :=
  bytes "2147483647\tA\t0,0\t0,0,0\t0,0,0\t0,0,0\t0,0,0\t0,0,0\t0,0,0\t0,0,0\t0,0,0\t0,0,0\t0,0,0\t0,0,0\t0,0,0\t\n"

/-- The state after a create without id in `store_at_int_max`. -/
def store_after_wrap : PartyDB_TXT :=
  { parties := some [(2147483647, blank_party 2147483647 (bytes "A")),
                     (-2147483648, blank_party (-2147483648) (bytes "B"))],
    next_party_id := -2147483647, dirty := true, case_sensitive := false,
    owner_sync_requests := 2 }

/-- The state after removing the party `INT_MAX` from `store_at_int_max`. -/
def store_wrapped_empty : PartyDB_TXT :=
  { parties := some [], next_party_id := -2147483648, dirty := true,
    case_sensitive := false, owner_sync_requests := 2 }

/-! ## Notions used by the theorems on long lines and on the lines of a file -/

/-- The lines of a text: every line ends with its line feed, the last one
may lack it. -/
def text_lines : List Nat → List (List Nat)
  | [] => []
  | c :: s =>
    if c = LF then [c] :: text_lines s
    else
      match text_lines s with
      | [] => [[c]]
      | l :: ls => (c :: l) :: ls

/-- The line passes the test of `party_db_txt_init` for the auto-increment
line. -/
def passes_newid_test (l : List Nat) : Bool := (newid_line (c_str l)).isSome

/-- A store whose only party has a name of 14 bytes with two line feeds. -/
def store_newline_name : PartyDB_TXT :=
  { parties := some [(1, blank_party 1 (bytes "A\n9\t%newid%\nB"))], next_party_id := 2,
    dirty := true, case_sensitive := false, owner_sync_requests := 1 }

/-! # Theorems -/

/-! ## Decimal fields: printing and reading back -/

theorem stopsNumber_nil : StopsNumber [] := by
  intro c t h; cases h

theorem stopsNumber_cons {c : Nat} {t : List Nat} (h : isdigit c = false) :
    StopsNumber (c :: t) := by
  intro c1 t1 e
  cases e
  exact h

theorem scan_digits_append (ds : List Nat) (hd : ∀ c ∈ ds, isdigit c = true)
    (rest : List Nat) (hr : StopsNumber rest) (acc : Nat) :
    scan_digits (ds ++ rest) acc = (digits_value ds acc, rest) := by
  induction ds generalizing acc with
  | nil =>
    cases rest with
    | nil => rfl
    | cons c t => simp [scan_digits, digits_value, hr c t rfl]
  | cons d ds ih =>
    have h1 : isdigit d = true := hd d (List.mem_cons_self _ _)
    have h2 : ∀ c ∈ ds, isdigit c = true := fun c hc => hd c (List.mem_cons_of_mem _ hc)
    rw [List.cons_append, scan_digits, if_pos h1, ih h2]
    rfl

theorem print_nat_fuel_isdigit (f n : Nat) :
    ∀ c ∈ print_nat_fuel f n, isdigit c = true := by
  induction f generalizing n with
  | zero => intro c hc; simp [print_nat_fuel] at hc
  | succ f ih =>
    intro c hc
    unfold print_nat_fuel at hc
    split at hc
    · simp only [List.mem_singleton] at hc
      subst hc
      simp [isdigit]; omega
    · rcases List.mem_append.1 hc with h | h
      · exact ih _ c h
      · simp only [List.mem_singleton] at h
        subst h
        simp [isdigit]; omega

theorem print_nat_fuel_ne_nil (f n : Nat) (h : n < f) : print_nat_fuel f n ≠ [] := by
  cases f with
  | zero => omega
  | succ f =>
    unfold print_nat_fuel
    split <;> simp

theorem digits_value_append (ds : List Nat) (d acc : Nat) :
    digits_value (ds ++ [d]) acc = digits_value ds acc * 10 + (d - 48) := by
  simp [digits_value, List.foldl_append]

theorem digits_value_print_nat_fuel (f n : Nat) (h : n < f) :
    digits_value (print_nat_fuel f n) 0 = n := by
  induction f generalizing n with
  | zero => omega
  | succ f ih =>
    unfold print_nat_fuel
    split
    · simp [digits_value]
    · rename_i h10
      have hlt : n / 10 < f := by omega
      rw [digits_value_append, ih _ hlt]
      omega

theorem print_nat_fuel_length (f n k : Nat) (hk : n < 10 ^ (k + 1)) :
    (print_nat_fuel f n).length ≤ k + 1 := by
  induction f generalizing n k with
  | zero => simp [print_nat_fuel]
  | succ f ih =>
    unfold print_nat_fuel
    split
    · simp
    · rename_i h10
      cases k with
      | zero => simp at hk; omega
      | succ k =>
        have : n / 10 < 10 ^ (k + 1) := by
          rw [Nat.div_lt_iff_lt_mul (by decide)]
          rw [pow_succ] at hk
          exact hk
        have := ih (n / 10) k this
        simp only [List.length_append, List.length_singleton]
        omega

theorem print_nat_isdigit (n : Nat) : ∀ c ∈ print_nat n, isdigit c = true :=
  print_nat_fuel_isdigit _ _

theorem print_nat_ne_nil (n : Nat) : print_nat n ≠ [] :=
  print_nat_fuel_ne_nil _ _ (Nat.lt_succ_self n)

theorem scan_unsigned_print_nat (n : Nat) (rest : List Nat) (hr : StopsNumber rest) :
    scan_unsigned (print_nat n ++ rest) = some (n, rest) := by
  have hne := print_nat_ne_nil n
  have hd := print_nat_isdigit n
  have hv : digits_value (print_nat n) 0 = n :=
    digits_value_print_nat_fuel _ _ (Nat.lt_succ_self n)
  have hs := scan_digits_append (print_nat n) hd rest hr 0
  cases hp : print_nat n with
  | nil => exact absurd hp hne
  | cons c t =>
    rw [hp] at hd hs hv
    have hc : isdigit c = true := hd c (List.mem_cons_self _ _)
    simp only [List.cons_append, scan_unsigned, hc, if_true]
    rw [← List.cons_append, hs, hv]

theorem print_int_bytes (v : Int) : ∀ c ∈ print_int v, is_number_byte c = true := by
  intro c hc
  unfold print_int at hc
  split at hc
  · rcases List.mem_cons.1 hc with h | h
    · subst h; rfl
    · simp [is_number_byte, print_nat_isdigit _ c h]
  · simp [is_number_byte, print_nat_isdigit _ c hc]

theorem print_int_ne_nil (v : Int) : print_int v ≠ [] := by
  unfold print_int
  split
  · simp
  · exact print_nat_ne_nil _

theorem print_int_head_not_space (v : Int) (c : Nat) (t : List Nat)
    (h : print_int v = c :: t) : isspace c = false := by
  have := print_int_bytes v c (by rw [h]; exact List.mem_cons_self _ _)
  simp only [is_number_byte, isdigit, MINUS, Bool.or_eq_true, Bool.and_eq_true,
    decide_eq_true_eq, beq_iff_eq] at this
  simp only [isspace, Bool.or_eq_false_iff, beq_eq_false_iff_ne, Bool.and_eq_false_iff,
    decide_eq_false_iff_not]
  omega

theorem wrap32_of_is_int (v : Int) (h : is_int v) : wrap32 v = v := by
  unfold is_int INT_MIN INT_MAX at h
  unfold wrap32
  omega

theorem scan_int_print_int (v : Int) (hv : is_int v) (rest : List Nat)
    (hr : StopsNumber rest) :
    scan_int (print_int v ++ rest) = some (v, rest) := by
  unfold scan_int
  by_cases hneg : v < 0
  · have hp : print_int v = MINUS :: print_nat (-v).toNat := by simp [print_int, hneg]
    rw [hp]
    have hw : wrap32 (-(((-v).toNat : Nat) : Int)) = v := by
      have : (((-v).toNat : Nat) : Int) = -v := Int.toNat_of_nonneg (by omega)
      rw [this, neg_neg, wrap32_of_is_int v hv]
    simp [skip_ws, isspace, MINUS, scan_unsigned_print_nat _ rest hr]
    simpa [MINUS] using hw
  · have hp : print_int v = print_nat v.toNat := by simp [print_int, hneg]
    have hw : wrap32 ((v.toNat : Nat) : Int) = v := by
      have : ((v.toNat : Nat) : Int) = v := Int.toNat_of_nonneg (by omega)
      rw [this, wrap32_of_is_int v hv]
    have hd := print_nat_isdigit v.toNat
    cases hq : print_nat v.toNat with
    | nil => exact absurd hq (print_nat_ne_nil _)
    | cons c t =>
      have hc : isdigit c = true := hd c (by rw [hq]; exact List.mem_cons_self _ _)
      have hsp : isspace c = false := by
        simp only [isdigit, Bool.and_eq_true, decide_eq_true_eq] at hc
        simp only [isspace, Bool.or_eq_false_iff, beq_eq_false_iff_ne, Bool.and_eq_false_iff,
          decide_eq_false_iff_not]
        omega
      have hm : c ≠ MINUS := by
        simp only [isdigit, Bool.and_eq_true, decide_eq_true_eq] at hc
        unfold MINUS; omega
      have hpl : c ≠ PLUS := by
        simp only [isdigit, Bool.and_eq_true, decide_eq_true_eq] at hc
        unfold PLUS; omega
      have hs := scan_unsigned_print_nat v.toNat rest hr
      rw [hq] at hs
      rw [hp, hq]
      rw [List.cons_append, skip_ws, if_neg (by simp [hsp])]
      simp only [hm, hpl, if_false]
      rw [← List.cons_append, hs]
      simp only [Option.map_some']
      rw [hw]

/-! ## The record codec -/

theorem strchr_skip (pre : List Nat) (h : ∀ c ∈ pre, c ≠ TAB) (rest : List Nat) :
    strchr (pre ++ TAB :: rest) TAB = some (TAB :: rest) := by
  induction pre with
  | nil => simp [strchr]
  | cons a pre ih =>
    have ha : a ≠ TAB := h a (List.mem_cons_self _ _)
    rw [List.cons_append, strchr, if_neg ha]
    exact ih (fun c hc => h c (List.mem_cons_of_mem _ hc))

theorem number_byte_ne_tab (c : Nat) (h : is_number_byte c = true) : c ≠ TAB := by
  simp only [is_number_byte, isdigit, MINUS, Bool.or_eq_true, Bool.and_eq_true,
    decide_eq_true_eq, beq_iff_eq] at h
  unfold TAB; omega

theorem print_int_no_tab (v : Int) : ∀ c ∈ print_int v, c ≠ TAB :=
  fun c hc => number_byte_ne_tab c (print_int_bytes v c hc)

theorem stopsNumber_tab (t : List Nat) : StopsNumber (TAB :: t) :=
  stopsNumber_cons (by decide)

theorem stopsNumber_comma (t : List Nat) : StopsNumber (COMMA :: t) :=
  stopsNumber_cons (by decide)

theorem skip_ws_print_int (v : Int) (rest : List Nat) :
    skip_ws (print_int v ++ rest) = print_int v ++ rest := by
  cases hp : print_int v with
  | nil => exact absurd hp (print_int_ne_nil v)
  | cons c t =>
    rw [List.cons_append, skip_ws, if_neg (by simp [print_int_head_not_space v c t hp])]

theorem scan_member_group (a c l : Int) (ha : is_int a) (hc : is_int c) (hl : is_int l)
    (rest : List Nat) :
    scan_member (print_int a ++ COMMA :: (print_int c ++ COMMA :: (print_int l ++ TAB :: rest)))
      = some (a, c, l) := by
  unfold scan_member
  rw [scan_int_print_int a ha _ (stopsNumber_comma _)]
  simp only [Option.bind_eq_bind, Option.some_bind, scan_char, if_true]
  rw [scan_int_print_int c hc _ (stopsNumber_comma _)]
  simp only [Option.some_bind, scan_char, if_true]
  rw [scan_int_print_int l hl _ (stopsNumber_tab _)]
  rfl

theorem strchr_group (a c l : Int) (rest : List Nat) :
    strchr (print_int a ++ COMMA :: (print_int c ++ COMMA :: (print_int l ++ TAB :: rest))) TAB
      = some (TAB :: rest) := by
  have h := strchr_skip (print_int a ++ COMMA :: (print_int c ++ COMMA :: print_int l))
    (by
      intro x hx
      simp only [List.mem_append, List.mem_cons] at hx
      rcases hx with h | h | h | h | h
      · exact print_int_no_tab _ x h
      · subst h; decide
      · exact print_int_no_tab _ x h
      · subst h; decide
      · exact print_int_no_tab _ x h) rest
  simpa [List.append_assoc] using h

theorem leader_normal (l : Int) (h : l = 0 ∨ l = 1) : (if l ≠ 0 then (1 : Int) else 0) = l := by
  rcases h with h | h <;> subst h <;> simp

theorem is_int_of_flag (l : Int) (h : l = 0 ∨ l = 1) : is_int l := by
  rcases h with h | h <;> subst h <;> decide

theorem fromstr_members_tostr (n : Nat) (ms : List party_member) (hlen : ms.length = n)
    (hv : ∀ m ∈ ms, valid_member m) (rest : List Nat) :
    fromstr_members n (some (TAB :: (tostr_members n ms ++ rest))) = some ms := by
  induction n generalizing ms with
  | zero =>
    cases ms with
    | nil => rfl
    | cons m ms => simp at hlen
  | succ n ih =>
    cases ms with
    | nil => simp at hlen
    | cons m ms =>
      obtain ⟨h1, h2, h3⟩ := hv m (List.mem_cons_self _ _)
      have hlen1 : ms.length = n := by simpa using hlen
      have hv1 : ∀ x ∈ ms, valid_member x := fun x hx => hv x (List.mem_cons_of_mem _ hx)
      unfold fromstr_members
      simp only [List.tail_cons, tostr_members, List.headD_cons, List.append_assoc,
        List.cons_append]
      rw [scan_member_group _ _ _ h1 h2 (is_int_of_flag _ h3), strchr_group]
      simp only [ih ms hlen1 hv1, Option.map_some', leader_normal _ h3]

theorem scan_not_tab_name (name : List Nat) (hn : ∀ c ∈ name, c ≠ TAB) (w : Nat)
    (hw : name.length ≤ w) (rest : List Nat) :
    scan_not_tab w (name ++ TAB :: rest) = (name, TAB :: rest) := by
  induction name generalizing w with
  | nil =>
    cases w with
    | zero => rfl
    | succ w => simp [scan_not_tab]
  | cons c t ih =>
    cases w with
    | zero => simp at hw
    | succ w =>
      have hc : c ≠ TAB := hn c (List.mem_cons_self _ _)
      have := ih (fun x hx => hn x (List.mem_cons_of_mem _ hx)) w (by simpa using hw)
      rw [List.cons_append, scan_not_tab, if_neg hc, this]

theorem scan_header_tostr (p : party) (hv : valid_record p) (hs : plain_start p.name)
    (rest : List Nat) :
    scan_header (mmo_party_tostr p ++ rest) = some (p.party_id, p.name, p.exp, p.item) := by
  obtain ⟨hid, hne, hlen, hbytes, hexp, hitem, -, -⟩ := hv
  unfold scan_header mmo_party_tostr
  simp only [List.append_assoc, List.cons_append]
  rw [scan_int_print_int _ hid _ (stopsNumber_tab _)]
  simp only [Option.bind_eq_bind, Option.some_bind]
  cases hname : p.name with
  | nil => exact absurd hname hne
  | cons c t =>
    have hc : isspace c = false := by
      have := hs
      rw [plain_start, hname] at this
      simpa using this
    have hnt : ∀ x ∈ c :: t, x ≠ TAB := by
      intro x hx
      rw [← hname] at hx
      exact (hbytes x hx).2.1
    have hl : (c :: t).length ≤ 255 := by
      rw [← hname]; omega
    have h1 : skip_ws (TAB :: (c :: t ++ TAB :: (print_int p.exp ++ COMMA ::
        (print_int p.item ++ TAB :: (tostr_members MAX_PARTY p.member ++ rest)))))
        = c :: t ++ TAB :: (print_int p.exp ++ COMMA ::
        (print_int p.item ++ TAB :: (tostr_members MAX_PARTY p.member ++ rest))) := by
      rw [skip_ws, if_pos (by decide), List.cons_append, skip_ws, if_neg (by simp [hc])]
    rw [h1]
    unfold scan_set_not_tab
    rw [scan_not_tab_name (c :: t) hnt 255 hl]
    simp only [Option.some_bind]
    rw [skip_ws, if_pos (by decide), skip_ws_print_int,
      scan_int_print_int _ (is_int_of_flag _ hexp) _ (stopsNumber_comma _)]
    simp only [Option.some_bind, scan_char, if_true]
    rw [scan_int_print_int _ hitem _ (stopsNumber_tab _)]
    rfl

theorem skip_tabs_tostr (p : party) (hv : valid_record p) (rest : List Nat) :
    skip_tabs 3 (some (mmo_party_tostr p ++ rest))
      = some (TAB :: (tostr_members MAX_PARTY p.member ++ rest)) := by
  obtain ⟨-, -, -, hbytes, -, -, -, -⟩ := hv
  unfold mmo_party_tostr
  simp only [List.append_assoc, List.cons_append]
  cases hp : print_int p.party_id with
  | nil => exact absurd hp (print_int_ne_nil _)
  | cons c t =>
    have ht : ∀ x ∈ t, x ≠ TAB := fun x hx =>
      print_int_no_tab p.party_id x (by rw [hp]; exact List.mem_cons_of_mem _ hx)
    have hn : ∀ x ∈ p.name, x ≠ TAB := fun x hx => (hbytes x hx).2.1
    have h3 := strchr_skip (print_int p.exp ++ COMMA :: print_int p.item)
      (by
        intro x hx
        simp only [List.mem_append, List.mem_cons] at hx
        rcases hx with h | h | h
        · exact print_int_no_tab _ x h
        · subst h; decide
        · exact print_int_no_tab _ x h) (tostr_members MAX_PARTY p.member ++ rest)
    simp only [List.append_assoc, List.cons_append] at h3
    simp only [skip_tabs, List.cons_append, List.tail_cons, strchr_skip t ht,
      strchr_skip p.name hn, h3]

theorem fromstr_tostr_append (p : party) (hv : valid_record p) (hs : plain_start p.name)
    (rest : List Nat) :
    mmo_party_fromstr (mmo_party_tostr p ++ rest) = some p := by
  unfold mmo_party_fromstr
  rw [scan_header_tostr p hv hs rest]
  simp only
  rw [skip_tabs_tostr p hv rest]
  obtain ⟨-, -, hlen, -, hexp, -, hm, hmv⟩ := hv
  rw [fromstr_members_tostr MAX_PARTY p.member hm hmv rest]
  simp only [Option.map_some', leader_normal _ hexp, safestrncpy, NAME_LENGTH]
  rw [List.take_of_length_le (by omega)]

/-! ## Round trip of the codec -/

/-- C1 (as amended): for every valid party record whose name does not begin
with a white-space byte, decoding the line written by the encoder succeeds and
gives back the record: id, name, both flags and every member slot in order. -/
theorem roundtrip_fromstr_tostr (r : party) (hv : valid_record r)
    (hs : plain_start r.name) :
    mmo_party_fromstr (mmo_party_tostr r) = some r := by
  have h := fromstr_tostr_append r hv hs []
  simpa using h

/-- Witness of C1 (as amended) on a party named "Alpha". -/
theorem roundtrip_fromstr_tostr_witness :
    valid_record (blank_party 7 (bytes "Alpha")).party ∧
    plain_start (blank_party 7 (bytes "Alpha")).party.name ∧
    mmo_party_fromstr (mmo_party_tostr (blank_party 7 (bytes "Alpha")).party)
      = some (blank_party 7 (bytes "Alpha")).party :=
  ⟨by decide, by decide, roundtrip_fromstr_tostr _ (by decide) (by decide)⟩

/-- C1 fails as stated: the record with id 1 and name " A" is valid, and the
decoder returns the name "A" for its encoding. -/
theorem roundtrip_fails_leading_space :
    valid_record party_leading_space ∧
    mmo_party_fromstr (mmo_party_tostr party_leading_space)
      = some { party_leading_space with name := bytes "A" } ∧
    mmo_party_fromstr (mmo_party_tostr party_leading_space) ≠ some party_leading_space := by
  decide

/-! ## The indexed store -/

theorem idb_get_put_same (m : DBMap) (k : Int) (v : party_data) :
    idb_get (idb_put m k v) k = some v := by
  induction m with
  | nil => simp [idb_put, idb_get]
  | cons e m ih =>
    obtain ⟨k1, v1⟩ := e
    unfold idb_put
    split
    · simp [idb_get]
    · rename_i hne
      simp [idb_get, hne, ih]

theorem idb_get_put_other (m : DBMap) (k : Int) (v : party_data) (j : Int) (h : j ≠ k) :
    idb_get (idb_put m k v) j = idb_get m j := by
  induction m with
  | nil => simp [idb_put, idb_get, Ne.symm h]
  | cons e m ih =>
    obtain ⟨k1, v1⟩ := e
    unfold idb_put
    split
    · rename_i he
      subst he
      simp [idb_get, Ne.symm h]
    · simp only [idb_get, ih]

theorem idb_get_remove_same (m : DBMap) (k : Int) : idb_get (idb_remove m k) k = none := by
  induction m with
  | nil => rfl
  | cons e m ih =>
    obtain ⟨k1, v1⟩ := e
    unfold idb_remove
    split
    · exact ih
    · rename_i hne
      simp [idb_get, hne, ih]

theorem idb_get_remove_other (m : DBMap) (k j : Int) (h : j ≠ k) :
    idb_get (idb_remove m k) j = idb_get m j := by
  induction m with
  | nil => rfl
  | cons e m ih =>
    obtain ⟨k1, v1⟩ := e
    unfold idb_remove
    split
    · rename_i he
      subst he
      simp [idb_get, Ne.symm h, ih]
    · simp only [idb_get, ih]

theorem idb_remove_absent (m : DBMap) (k : Int) (h : idb_get m k = none) :
    idb_remove m k = m := by
  induction m with
  | nil => rfl
  | cons e m ih =>
    obtain ⟨k1, v1⟩ := e
    unfold idb_get at h
    split at h
    · cases h
    · rename_i hne
      simp [idb_remove, hne, ih h]

theorem idb_remove_twice (m : DBMap) (k : Int) :
    idb_remove (idb_remove m k) k = idb_remove m k :=
  idb_remove_absent _ _ (idb_get_remove_same m k)

theorem idb_get_overwrite_same (m : DBMap) (k : Int) (v old : party_data)
    (h : idb_get m k = some old) : idb_get (db_overwrite m k v) k = some v := by
  induction m with
  | nil => simp [idb_get] at h
  | cons e m ih =>
    obtain ⟨k1, v1⟩ := e
    unfold db_overwrite
    unfold idb_get at h
    split
    · rename_i he
      simp [idb_get, he]
    · rename_i hne
      rw [if_neg hne] at h
      simp [idb_get, hne, ih h]

theorem idb_get_overwrite_other (m : DBMap) (k : Int) (v : party_data) (j : Int)
    (h : j ≠ k) : idb_get (db_overwrite m k v) j = idb_get m j := by
  induction m with
  | nil => rfl
  | cons e m ih =>
    obtain ⟨k1, v1⟩ := e
    unfold db_overwrite
    split
    · rename_i he
      subst he
      simp [idb_get, Ne.symm h]
    · simp only [idb_get, ih]

theorem db_keys_overwrite (m : DBMap) (k : Int) (v : party_data) :
    db_keys (db_overwrite m k v) = db_keys m := by
  induction m with
  | nil => rfl
  | cons e m ih =>
    obtain ⟨k1, v1⟩ := e
    unfold db_overwrite
    split
    · simp [db_keys]
    · simp only [db_keys, List.map_cons] at ih ⊢
      rw [ih]

theorem idb_get_some_iff_mem_keys (m : DBMap) (k : Int) :
    (∃ v, idb_get m k = some v) ↔ k ∈ db_keys m := by
  induction m with
  | nil => simp [idb_get, db_keys]
  | cons e m ih =>
    obtain ⟨k1, v1⟩ := e
    by_cases he : k1 = k
    · subst he
      simp [idb_get, db_keys]
    · have hk : ¬ k = k1 := fun h => he h.symm
      simp only [idb_get, if_neg he, db_keys, List.map_cons, List.mem_cons, hk, false_or]
      exact ih

theorem idb_get_none_iff_not_mem_keys (m : DBMap) (k : Int) :
    idb_get m k = none ↔ k ∉ db_keys m := by
  rw [← idb_get_some_iff_mem_keys]
  cases idb_get m k <;> simp

/-! ## Comparison of names -/

theorem strcmp_eq_zero_iff (a b : List Nat) : strcmp a b = 0 ↔ a = b := by
  induction a generalizing b with
  | nil => cases b <;> simp [strcmp]
  | cons x a ih =>
    cases b with
    | nil => simp [strcmp]
    | cons y b =>
      unfold strcmp
      split
      · rename_i h
        subst h
        simp [ih]
      · rename_i h
        split <;> simp [h]

theorem stricmp_eq_zero_iff (a b : List Nat) :
    stricmp a b = 0 ↔ a.map tolower = b.map tolower := by
  induction a generalizing b with
  | nil => cases b <;> simp [stricmp]
  | cons x a ih =>
    cases b with
    | nil => simp [stricmp]
    | cons y b =>
      unfold stricmp
      split
      · rename_i h
        simp [ih, h]
      · rename_i h
        split <;> simp [h]

theorem name_compare_eq_zero_iff (cs : Bool) (a b : List Nat) :
    name_compare cs a b = 0 ↔ names_equal cs a b := by
  cases cs
  · simp [name_compare, names_equal, stricmp_eq_zero_iff]
  · simp [name_compare, names_equal, strcmp_eq_zero_iff]

theorem name2id_loop_some_iff (cmp : List Nat → List Nat → Int) (name : List Nat)
    (l : List party_data) (r : party_data) :
    name2id_loop cmp name l = some r ↔
      ∃ pre post, l = pre ++ r :: post ∧ (∀ x ∈ pre, cmp name x.party.name ≠ 0) ∧
        cmp name r.party.name = 0 := by
  induction l with
  | nil => simp [name2id_loop]
  | cons a l ih =>
    unfold name2id_loop
    split
    · rename_i h0
      constructor
      · intro h
        cases h
        exact ⟨[], l, rfl, by simp, h0⟩
      · rintro ⟨pre, post, hl, hpre, hr⟩
        cases pre with
        | nil =>
          simp only [List.nil_append, List.cons.injEq] at hl
          rw [hl.1]
        | cons b pre =>
          simp only [List.cons_append, List.cons.injEq] at hl
          exact absurd h0 (by rw [hl.1]; exact hpre b (List.mem_cons_self _ _))
    · rename_i h0
      rw [ih]
      constructor
      · rintro ⟨pre, post, hl, hpre, hr⟩
        refine ⟨a :: pre, post, by simp [hl], ?_, hr⟩
        intro x hx
        rcases List.mem_cons.1 hx with h | h
        · subst h; exact h0
        · exact hpre x h
      · rintro ⟨pre, post, hl, hpre, hr⟩
        cases pre with
        | nil =>
          simp only [List.nil_append, List.cons.injEq] at hl
          exact absurd hr (by rw [← hl.1]; exact h0)
        | cons b pre =>
          simp only [List.cons_append, List.cons.injEq] at hl
          exact ⟨pre, post, hl.2, fun x hx => hpre x (List.mem_cons_of_mem _ hx), hr⟩

theorem name2id_loop_none_iff (cmp : List Nat → List Nat → Int) (name : List Nat)
    (l : List party_data) :
    name2id_loop cmp name l = none ↔ ∀ x ∈ l, cmp name x.party.name ≠ 0 := by
  induction l with
  | nil => simp [name2id_loop]
  | cons a l ih =>
    unfold name2id_loop
    split
    · rename_i h0
      simp [h0]
    · rename_i h0
      simp [ih, h0]

/-! ## CRUD operations -/

/-- C3: when the id chosen for a new record (its own id, or `next_party_id`
for the id -1) is already a key of the store, `party_db_txt_create` returns
false and the state is the one before the call: all records, `next_party_id`,
the dirty flag and the number of sync requests sent to the owner; the
caller's record is not changed either. -/
theorem create_conflict_unchanged (db : PartyDB_TXT) (parties : DBMap) (p : party_data)
    (hdb : db.parties = some parties) (hk : create_party_id db p ∈ db_keys parties) :
    party_db_txt_create db p = some (false, db, p) := by
  obtain ⟨v, hv⟩ := (idb_get_some_iff_mem_keys parties _).2 hk
  unfold party_db_txt_create
  simp only [hdb, hv]

/-- Witness of C3: creating a party with id 1 in a store that holds id 1. -/
theorem create_conflict_unchanged_witness :
    store_alpha.parties = some [(1, blank_party 1 (bytes "Alpha"))] ∧
    create_party_id store_alpha (blank_party 1 (bytes "Beta"))
      ∈ db_keys [(1, blank_party 1 (bytes "Alpha"))] ∧
    party_db_txt_create store_alpha (blank_party 1 (bytes "Beta"))
      = some (false, store_alpha, blank_party 1 (bytes "Beta")) :=
  ⟨rfl, by decide, create_conflict_unchanged store_alpha _ _ rfl (by decide)⟩

/-- C4 (as amended): in a store with watermark `n`, a create whose chosen id
(`n` for the id -1, the record's id otherwise) is free and is not `INT_MAX`
succeeds, stores the record under that id, writes the id back to the caller's
record and leaves `next_party_id = max n (id + 1)`. -/
theorem create_assigns_id (db : PartyDB_TXT) (parties : DBMap) (p : party_data)
    (hdb : db.parties = some parties)
    (hp : is_int p.party.party_id) (hn : is_int db.next_party_id)
    (hfree : create_party_id db p ∉ db_keys parties)
    (hmax : create_party_id db p ≠ INT_MAX) :
    ∃ db1 p1, party_db_txt_create db p = some (true, db1, p1) ∧
      p1.party.party_id = (if p.party.party_id = -1 then db.next_party_id
        else p.party.party_id) ∧
      p1 = { party := { p.party with party_id := p1.party.party_id } } ∧
      db1.parties = some (idb_put parties p1.party.party_id p1) ∧
      db1.next_party_id = max db.next_party_id (p1.party.party_id + 1) := by
  have hnone := (idb_get_none_iff_not_mem_keys parties _).2 hfree
  have hid : is_int (create_party_id db p) := by
    unfold create_party_id; split <;> assumption
  have hw : wrap32 (create_party_id db p + 1) = create_party_id db p + 1 := by
    apply wrap32_of_is_int
    unfold is_int INT_MIN INT_MAX at *
    omega
  refine ⟨{ db with
      parties := some (idb_put parties (create_party_id db p)
        { party := { p.party with party_id := create_party_id db p } }),
      next_party_id :=
        if create_party_id db p ≥ db.next_party_id then wrap32 (create_party_id db p + 1)
        else db.next_party_id,
      dirty := true,
      owner_sync_requests := db.owner_sync_requests + 1 },
    { party := { p.party with party_id := create_party_id db p } }, ?_, ?_, rfl, rfl, ?_⟩
  · unfold party_db_txt_create
    simp only [hdb, hnone]
  · simp only [create_party_id]
    split <;> simp_all
  · simp only [hw]
    split
    · rw [max_eq_right (by omega)]
    · rw [max_eq_left (by omega)]

/-- Witness of C4 (as amended): a create without id on the empty store with
watermark 1. -/
theorem create_assigns_id_witness :
    ∃ db1 p1, party_db_txt_create empty_store (blank_party (-1) (bytes "A"))
        = some (true, db1, p1) ∧
      p1.party.party_id = (if (blank_party (-1) (bytes "A")).party.party_id = -1
        then empty_store.next_party_id else (blank_party (-1) (bytes "A")).party.party_id) ∧
      p1 = { party := { (blank_party (-1) (bytes "A")).party with
        party_id := p1.party.party_id } } ∧
      db1.parties = some (idb_put [] p1.party.party_id p1) ∧
      db1.next_party_id = max empty_store.next_party_id (p1.party.party_id + 1) :=
  create_assigns_id empty_store [] (blank_party (-1) (bytes "A")) rfl
    (by decide) (by decide) (by decide) (by decide)

/-- C4 fails as stated: on the empty store with watermark 1, a create with
the explicit id `INT_MAX` succeeds and leaves `next_party_id = INT_MIN`, which
is not `max 1 (INT_MAX + 1)`. -/
theorem create_wraps_at_int_max :
    party_db_txt_create empty_store (blank_party 2147483647 (bytes "A"))
      = some (true, store_at_int_max, blank_party 2147483647 (bytes "A")) ∧
    store_at_int_max.next_party_id = -2147483648 ∧
    store_at_int_max.next_party_id
      ≠ max empty_store.next_party_id
          ((blank_party 2147483647 (bytes "A")).party.party_id + 1) := by
  decide

/-- The example of the specification: on the empty store with watermark 1 a
create without id is assigned 1, a create with id 5 then sets the watermark
to 6, and a third create without id is assigned 6. -/
theorem create_example_sequence :
    ∃ db1 db2 db3 p1 p2 p3,
      party_db_txt_create empty_store (blank_party (-1) (bytes "A")) = some (true, db1, p1) ∧
      p1.party.party_id = 1 ∧
      party_db_txt_create db1 (blank_party 5 (bytes "B")) = some (true, db2, p2) ∧
      db2.next_party_id = 6 ∧
      party_db_txt_create db2 (blank_party (-1) (bytes "C")) = some (true, db3, p3) ∧
      p3.party.party_id = 6 := by
  refine ⟨_, _, _, _, _, _, rfl, by decide, rfl, by decide, rfl, by decide⟩

/-- C5: when the id of the record is not a key of the store,
`party_db_txt_save` returns false and the state is the one before the call:
no entry is added, the records, `next_party_id` and the dirty flag are kept. -/
theorem save_absent_unchanged (db : PartyDB_TXT) (parties : DBMap) (p : party_data)
    (hdb : db.parties = some parties) (hk : p.party.party_id ∉ db_keys parties) :
    party_db_txt_save db p = some (false, db) := by
  have hnone := (idb_get_none_iff_not_mem_keys parties _).2 hk
  unfold party_db_txt_save
  simp only [hdb, hnone]

/-- Witness of C5: saving id 2 in a store that holds only id 1. -/
theorem save_absent_unchanged_witness :
    store_alpha.parties = some [(1, blank_party 1 (bytes "Alpha"))] ∧
    (blank_party 2 (bytes "Beta")).party.party_id ∉ db_keys [(1, blank_party 1 (bytes "Alpha"))] ∧
    party_db_txt_save store_alpha (blank_party 2 (bytes "Beta")) = some (false, store_alpha) :=
  ⟨rfl, by decide, save_absent_unchanged store_alpha _ _ rfl (by decide)⟩

/-- C6: when the id of the record `p` is a key of the store,
`party_db_txt_save` returns true; a following `party_db_txt_load` of that id
returns true with exactly `p`; the record under every other id, the list of
keys and `next_party_id` are as before. -/
theorem save_overwrites (db : PartyDB_TXT) (parties : DBMap) (p q : party_data)
    (hdb : db.parties = some parties) (hk : p.party.party_id ∈ db_keys parties) :
    ∃ db1 parties1, party_db_txt_save db p = some (true, db1) ∧
      db1.parties = some parties1 ∧
      party_db_txt_load db1 q p.party.party_id = some (true, p) ∧
      (∀ k, k ≠ p.party.party_id → idb_get parties1 k = idb_get parties k) ∧
      db_keys parties1 = db_keys parties ∧
      db1.next_party_id = db.next_party_id := by
  obtain ⟨v, hv⟩ := (idb_get_some_iff_mem_keys parties _).2 hk
  refine ⟨{ db with
      parties := some (db_overwrite parties p.party.party_id p),
      dirty := true,
      owner_sync_requests := db.owner_sync_requests + 1 },
    db_overwrite parties p.party.party_id p, ?_, rfl, ?_, ?_, ?_, rfl⟩
  · unfold party_db_txt_save
    simp only [hdb, hv]
  · unfold party_db_txt_load
    simp only [idb_get_overwrite_same parties _ p v hv]
  · intro k hne
    exact idb_get_overwrite_other parties _ p k hne
  · exact db_keys_overwrite parties _ p

/-- Witness of C6: saving a new name and flags for id 1 in a store that holds
id 1. -/
theorem save_overwrites_witness :
    store_alpha.parties = some [(1, blank_party 1 (bytes "Alpha"))] ∧
    (blank_party 1 (bytes "Beta")).party.party_id ∈ db_keys [(1, blank_party 1 (bytes "Alpha"))] ∧
    ∃ db1 parties1, party_db_txt_save store_alpha (blank_party 1 (bytes "Beta"))
        = some (true, db1) ∧
      db1.parties = some parties1 ∧
      party_db_txt_load db1 (blank_party 0 []) (blank_party 1 (bytes "Beta")).party.party_id
        = some (true, blank_party 1 (bytes "Beta")) ∧
      (∀ k, k ≠ (blank_party 1 (bytes "Beta")).party.party_id →
        idb_get parties1 k = idb_get [(1, blank_party 1 (bytes "Alpha"))] k) ∧
      db_keys parties1 = db_keys [(1, blank_party 1 (bytes "Alpha"))] ∧
      db1.next_party_id = store_alpha.next_party_id :=
  ⟨rfl, by decide, save_overwrites store_alpha _ _ (blank_party 0 []) rfl (by decide)⟩

/-- C7: on an initialised store `party_db_txt_remove` returns true for every
id and keeps `next_party_id`; when the id is absent the records are unchanged;
afterwards no record is stored under the id and the record under every other
id is as before; a second removal of the same id gives the same records,
`next_party_id` and dirty flag as the first. -/
theorem remove_total_idempotent (db : PartyDB_TXT) (parties : DBMap) (party_id : Int)
    (hdb : db.parties = some parties) :
    ∃ db1 parties1, party_db_txt_remove db party_id = some (true, db1) ∧
      db1.parties = some parties1 ∧
      db1.next_party_id = db.next_party_id ∧
      (party_id ∉ db_keys parties → parties1 = parties) ∧
      idb_get parties1 party_id = none ∧
      (∀ k, k ≠ party_id → idb_get parties1 k = idb_get parties k) ∧
      ∃ db2, party_db_txt_remove db1 party_id = some (true, db2) ∧
        db2.parties = db1.parties ∧ db2.next_party_id = db1.next_party_id ∧
        db2.dirty = db1.dirty := by
  refine ⟨{ db with
      parties := some (idb_remove parties party_id),
      dirty := true,
      owner_sync_requests := db.owner_sync_requests + 1 },
    idb_remove parties party_id, ?_, rfl, rfl, ?_, ?_, ?_, ?_⟩
  · unfold party_db_txt_remove
    simp only [hdb]
  · intro h
    exact idb_remove_absent parties party_id ((idb_get_none_iff_not_mem_keys parties _).2 h)
  · exact idb_get_remove_same parties party_id
  · intro k hne
    exact idb_get_remove_other parties party_id k hne
  · refine ⟨{ db with
        parties := some (idb_remove (idb_remove parties party_id) party_id),
        dirty := true,
        owner_sync_requests := db.owner_sync_requests + 1 + 1 }, ?_, ?_, rfl, rfl⟩
    · unfold party_db_txt_remove
      simp only
    · simp only [idb_remove_twice]

/-- Witness of C7: removing id 1 from a store that holds id 1. -/
theorem remove_total_idempotent_witness :
    store_alpha.parties = some [(1, blank_party 1 (bytes "Alpha"))] ∧
    ∃ db1 parties1, party_db_txt_remove store_alpha 1 = some (true, db1) ∧
      db1.parties = some parties1 ∧
      db1.next_party_id = store_alpha.next_party_id ∧
      ((1 : Int) ∉ db_keys [(1, blank_party 1 (bytes "Alpha"))] →
        parties1 = [(1, blank_party 1 (bytes "Alpha"))]) ∧
      idb_get parties1 1 = none ∧
      (∀ k, k ≠ 1 → idb_get parties1 k = idb_get [(1, blank_party 1 (bytes "Alpha"))] k) ∧
      ∃ db2, party_db_txt_remove db1 1 = some (true, db2) ∧
        db2.parties = db1.parties ∧ db2.next_party_id = db1.next_party_id ∧
        db2.dirty = db1.dirty :=
  ⟨rfl, remove_total_idempotent store_alpha _ 1 rfl⟩

/-- C8: on an initialised store `party_db_txt_name2id` returns the id of the
first record in iteration order whose name equals the queried name (exactly
when `case_sensitive` is set, up to the case of letters otherwise), and
returns false exactly when no stored record has an equal name. -/
theorem name2id_first_match (db : PartyDB_TXT) (parties : DBMap) (name : List Nat)
    (hdb : db.parties = some parties) :
    (∀ id, party_db_txt_name2id db name = some (some id) ↔
      ∃ pre r post, db_iterate parties = pre ++ r :: post ∧
        (∀ x ∈ pre, ¬ names_equal db.case_sensitive name x.party.name) ∧
        names_equal db.case_sensitive name r.party.name ∧ r.party.party_id = id) ∧
    (party_db_txt_name2id db name = some none ↔
      ∀ x ∈ db_iterate parties, ¬ names_equal db.case_sensitive name x.party.name) := by
  unfold party_db_txt_name2id
  simp only [hdb]
  constructor
  · intro id
    cases hl : name2id_loop (name_compare db.case_sensitive) name (db_iterate parties) with
    | none =>
      rw [name2id_loop_none_iff] at hl
      simp only [Option.some.injEq, reduceCtorEq, false_iff, not_exists, not_and]
      intro pre r post hsplit _ hr _
      have := hl r (by rw [hsplit]; simp)
      exact absurd ((name_compare_eq_zero_iff _ _ _).2 hr) this
    | some tmp =>
      rw [name2id_loop_some_iff] at hl
      obtain ⟨pre, post, hsplit, hpre, hr⟩ := hl
      simp only [Option.some.injEq]
      constructor
      · intro hid
        refine ⟨pre, tmp, post, hsplit, ?_, (name_compare_eq_zero_iff _ _ _).1 hr, hid⟩
        intro x hx hx2
        exact hpre x hx ((name_compare_eq_zero_iff _ _ _).2 hx2)
      · rintro ⟨pre2, r2, post2, hsplit2, hpre2, hr2, hid2⟩
        have h2 : name2id_loop (name_compare db.case_sensitive) name (db_iterate parties)
            = some r2 := by
          rw [name2id_loop_some_iff]
          exact ⟨pre2, post2, hsplit2,
            fun x hx hx2 => hpre2 x hx ((name_compare_eq_zero_iff _ _ _).1 hx2),
            (name_compare_eq_zero_iff _ _ _).2 hr2⟩
        have h1 : name2id_loop (name_compare db.case_sensitive) name (db_iterate parties)
            = some tmp := by
          rw [name2id_loop_some_iff]
          exact ⟨pre, post, hsplit, hpre, hr⟩
        rw [h1] at h2
        cases h2
        exact hid2
  · cases hl : name2id_loop (name_compare db.case_sensitive) name (db_iterate parties) with
    | none =>
      rw [name2id_loop_none_iff] at hl
      simp only [true_iff]
      intro x hx hx2
      exact hl x hx ((name_compare_eq_zero_iff _ _ _).2 hx2)
    | some tmp =>
      rw [name2id_loop_some_iff] at hl
      obtain ⟨pre, post, hsplit, hpre, hr⟩ := hl
      simp only [Option.some.injEq, reduceCtorEq, false_iff, not_forall]
      exact ⟨tmp, by rw [hsplit]; simp, fun h => h ((name_compare_eq_zero_iff _ _ _).1 hr)⟩

/-- Witness of C8: with a stored party named "Alpha", the lookup of "alpha"
finds id 1 when `case_sensitive` is false and fails when it is true. -/
theorem name2id_first_match_witness :
    party_db_txt_name2id store_alpha (bytes "alpha") = some (some 1) ∧
    party_db_txt_name2id { store_alpha with case_sensitive := true } (bytes "alpha")
      = some none :=
  ⟨((name2id_first_match store_alpha [(1, blank_party 1 (bytes "Alpha"))] (bytes "alpha")
      rfl).1 1).2 ⟨[], blank_party 1 (bytes "Alpha"), [], rfl, by decide, by decide, rfl⟩,
   (name2id_first_match { store_alpha with case_sensitive := true }
      [(1, blank_party 1 (bytes "Alpha"))] (bytes "alpha") rfl).2.2 (by decide)⟩

/-! ## The watermark -/

theorem wrap32_is_int (n : Int) : is_int (wrap32 n) := by
  unfold is_int INT_MIN INT_MAX wrap32
  omega

theorem scan_int_is_int (s : List Nat) (v : Int) (rest : List Nat)
    (h : scan_int s = some (v, rest)) : is_int v := by
  unfold scan_int at h
  split at h
  · cases h
  · split at h
    · simp only [Option.map_eq_some', Prod.mk.injEq] at h
      obtain ⟨r, -, hv, -⟩ := h
      rw [← hv]; exact wrap32_is_int _
    · split at h
      · simp only [Option.map_eq_some', Prod.mk.injEq] at h
        obtain ⟨r, -, hv, -⟩ := h
        rw [← hv]; exact wrap32_is_int _
      · simp only [Option.map_eq_some', Prod.mk.injEq] at h
        obtain ⟨r, -, hv, -⟩ := h
        rw [← hv]; exact wrap32_is_int _

theorem scan_header_is_int (s : List Nat) (id : Int) (name : List Nat) (e i : Int)
    (h : scan_header s = some (id, name, e, i)) : is_int id := by
  unfold scan_header at h
  cases h1 : scan_int s with
  | none => simp [h1] at h
  | some r1 =>
    obtain ⟨v, rest⟩ := r1
    have hv := scan_int_is_int s v rest h1
    simp only [h1, Option.bind_eq_bind, Option.some_bind, Option.bind_eq_some,
      Option.some.injEq, Prod.mk.injEq] at h
    obtain ⟨_, _, _, _, _, _, _, _, hid, _⟩ := h
    rw [← hid]; exact hv

theorem fromstr_is_int (s : List Nat) (p : party) (h : mmo_party_fromstr s = some p) :
    is_int p.party_id := by
  unfold mmo_party_fromstr at h
  split at h
  · cases h
  · rename_i id name e i hh
    simp only [Option.map_eq_some'] at h
    obtain ⟨ms, -, hp⟩ := h
    rw [← hp]
    exact scan_header_is_int s id name e i hh

theorem newid_line_is_int (line : List Nat) (id : Int) (h : newid_line line = some id) :
    is_int id := by
  unfold newid_line at h
  split at h
  · cases h
  · rename_i pid n hs
    split at h
    · cases h
      unfold scan_newid at hs
      split at hs
      · cases hs
      · rename_i v s1 hv
        have := scan_int_is_int line v s1 hv
        split at hs <;> (cases hs; exact this)
    · cases h

theorem mem_idb_put (m : DBMap) (k : Int) (v : party_data) (e : Int × party_data)
    (h : e ∈ idb_put m k v) : e ∈ m ∨ e = (k, v) := by
  induction m with
  | nil => simp [idb_put] at h; exact Or.inr h
  | cons a m ih =>
    obtain ⟨k1, v1⟩ := a
    unfold idb_put at h
    split at h
    · rcases List.mem_cons.1 h with h | h
      · exact Or.inr h
      · exact Or.inl (List.mem_cons_of_mem _ h)
    · rcases List.mem_cons.1 h with h | h
      · exact Or.inl (by rw [h]; exact List.mem_cons_self _ _)
      · rcases ih h with h | h
        · exact Or.inl (List.mem_cons_of_mem _ h)
        · exact Or.inr h

theorem mem_keys_idb_put_self (m : DBMap) (k : Int) (v : party_data) :
    k ∈ db_keys (idb_put m k v) :=
  (idb_get_some_iff_mem_keys _ _).1 ⟨v, idb_get_put_same m k v⟩

theorem mem_keys_idb_put_of_mem (m : DBMap) (k : Int) (v : party_data) (j : Int)
    (h : j ∈ db_keys m) : j ∈ db_keys (idb_put m k v) := by
  by_cases hj : j = k
  · subst hj; exact mem_keys_idb_put_self m j v
  · rw [← idb_get_some_iff_mem_keys] at h ⊢
    rw [idb_get_put_other m k v j hj]
    exact h

theorem mem_idb_remove (m : DBMap) (k : Int) (e : Int × party_data)
    (h : e ∈ idb_remove m k) : e ∈ m := by
  induction m with
  | nil => simp [idb_remove] at h
  | cons a m ih =>
    obtain ⟨k1, v1⟩ := a
    unfold idb_remove at h
    split at h
    · exact List.mem_cons_of_mem _ (ih h)
    · rcases List.mem_cons.1 h with h | h
      · rw [h]; exact List.mem_cons_self _ _
      · exact List.mem_cons_of_mem _ (ih h)

theorem mem_db_overwrite (m : DBMap) (k : Int) (v : party_data) (e : Int × party_data)
    (h : e ∈ db_overwrite m k v) : e ∈ m ∨ (e = (k, v) ∧ ∃ v0, (k, v0) ∈ m) := by
  induction m with
  | nil => simp [db_overwrite] at h
  | cons a m ih =>
    obtain ⟨k1, v1⟩ := a
    unfold db_overwrite at h
    split at h
    · rename_i hk
      subst hk
      rcases List.mem_cons.1 h with h | h
      · exact Or.inr ⟨h, v1, List.mem_cons_self _ _⟩
      · exact Or.inl (List.mem_cons_of_mem _ h)
    · rcases List.mem_cons.1 h with h | h
      · exact Or.inl (by rw [h]; exact List.mem_cons_self _ _)
      · rcases ih h with h | ⟨h, v0, hv0⟩
        · exact Or.inl (List.mem_cons_of_mem _ h)
        · exact Or.inr ⟨h, v0, List.mem_cons_of_mem _ hv0⟩

theorem init_line_keys_mono (line : List Nat) (m : DBMap) (n : Int) (k : Int)
    (h : k ∈ db_keys m) : k ∈ db_keys (init_line line m n).1 := by
  unfold init_line
  split
  · exact h
  · split
    · exact h
    · exact mem_keys_idb_put_of_mem _ _ _ _ h

theorem init_loop_keys_mono (f : Nat) (fp : List Nat) (m : DBMap) (n : Int) (k : Int)
    (h : k ∈ db_keys m) : k ∈ db_keys (init_loop f fp m n).1 := by
  induction f generalizing fp m n with
  | zero => exact h
  | succ f ih =>
    unfold init_loop
    split
    · exact h
    · exact ih _ _ _ (init_line_keys_mono _ _ _ _ h)

theorem store_inv_put (m : DBMap) (n : Int) (p : party) (h : store_inv m n)
    (hp : is_int p.party_id) (hmax : p.party_id ≠ INT_MAX) :
    store_inv (idb_put m p.party_id { party := p })
      (if p.party_id ≥ n then wrap32 (p.party_id + 1) else n) := by
  obtain ⟨hn, hm⟩ := h
  have hw : wrap32 (p.party_id + 1) = p.party_id + 1 := by
    apply wrap32_of_is_int
    unfold is_int INT_MIN INT_MAX at *
    omega
  rw [hw]
  constructor
  · split
    · unfold is_int INT_MIN INT_MAX at *; omega
    · exact hn
  · intro e he
    rcases mem_idb_put _ _ _ _ he with h1 | h1
    · obtain ⟨a, b, c⟩ := hm e h1
      refine ⟨a, b, ?_⟩
      split <;> omega
    · subst h1
      refine ⟨hp, rfl, ?_⟩
      split <;> simp only <;> omega

theorem init_line_inv (line : List Nat) (m : DBMap) (n : Int)
    (h : store_inv m n) (hmax : INT_MAX ∉ db_keys (init_line line m n).1) :
    store_inv (init_line line m n).1 (init_line line m n).2 := by
  unfold init_line at hmax ⊢
  split
  · rename_i id hid
    have := newid_line_is_int _ _ hid
    obtain ⟨hn, hm⟩ := h
    constructor
    · simp only; split <;> assumption
    · intro e he
      obtain ⟨a, b, c⟩ := hm e he
      refine ⟨a, b, ?_⟩
      simp only; split <;> omega
  · rename_i hid
    rw [hid] at hmax
    simp only at hmax
    split
    · exact h
    · rename_i p hfs
      rw [hfs] at hmax
      simp only at hmax
      apply store_inv_put m n p h (fromstr_is_int _ _ hfs)
      intro hp
      apply hmax
      rw [← hp]
      exact mem_keys_idb_put_self _ _ _

theorem init_loop_inv (f : Nat) (fp : List Nat) (m : DBMap) (n : Int)
    (h : store_inv m n) (hmax : INT_MAX ∉ db_keys (init_loop f fp m n).1) :
    store_inv (init_loop f fp m n).1 (init_loop f fp m n).2 := by
  induction f generalizing fp m n with
  | zero => exact h
  | succ f ih =>
    unfold init_loop at hmax ⊢
    split
    · exact h
    · rename_i buf fp1 hg
      rw [hg] at hmax
      simp only at hmax
      refine ih _ _ _ ?_ hmax
      apply init_line_inv _ _ _ h
      intro hk
      exact hmax (init_loop_keys_mono _ _ _ _ _ hk)

theorem step_inv (db db1 : PartyDB_TXT) (hs : Step db db1) (hb : below_int_max db1)
    (hn : is_int db.next_party_id)
    (h : ∀ parties, db.parties = some parties → store_inv parties db.next_party_id) :
    is_int db1.next_party_id ∧
      ∀ parties, db1.parties = some parties → store_inv parties db1.next_party_id := by
  cases hs with
  | init file =>
    cases file with
    | none =>
      refine ⟨hn, ?_⟩
      intro parties hp
      simp only [party_db_txt_init, db_clear, Option.some.injEq] at hp
      subst hp
      exact ⟨hn, by simp⟩
    | some fp =>
      have hinv : store_inv (init_loop fp.length fp [] db.next_party_id).1
          (init_loop fp.length fp [] db.next_party_id).2 := by
        apply init_loop_inv
        · exact ⟨hn, by simp⟩
        · exact hb _ rfl
      refine ⟨hinv.1, ?_⟩
      intro parties hp
      simp only [party_db_txt_init, db_clear, Option.some.injEq] at hp
      subst hp
      exact hinv
  | create p r _ p1 hp hc =>
    unfold party_db_txt_create at hc
    cases hdb : db.parties with
    | none => simp [hdb] at hc
    | some m =>
      simp only [hdb] at hc
      have hm := h m hdb
      cases hg : idb_get m (create_party_id db p) with
      | some v =>
        simp only [hg, Option.some.injEq, Prod.mk.injEq] at hc
        obtain ⟨-, hdb1, -⟩ := hc
        subst hdb1
        exact ⟨hn, h⟩
      | none =>
        simp only [hg, Option.some.injEq, Prod.mk.injEq] at hc
        obtain ⟨-, hdb1, -⟩ := hc
        subst hdb1
        have hid : is_int (create_party_id db p) := by
          unfold create_party_id; split <;> assumption
        have hne : create_party_id db p ≠ INT_MAX := by
          intro he
          apply hb _ rfl
          rw [← he]
          exact mem_keys_idb_put_self _ _ _
        have := store_inv_put m db.next_party_id
          { p.party with party_id := create_party_id db p } hm hid hne
        exact ⟨this.1, fun parties hp => by
          simp only [Option.some.injEq] at hp
          subst hp
          exact this⟩
  | save p r _ hc =>
    unfold party_db_txt_save at hc
    cases hdb : db.parties with
    | none => simp [hdb] at hc
    | some m =>
      simp only [hdb] at hc
      have hm := h m hdb
      cases hg : idb_get m p.party.party_id with
      | none =>
        simp only [hg, Option.some.injEq, Prod.mk.injEq] at hc
        obtain ⟨-, hdb1⟩ := hc
        subst hdb1
        exact ⟨hn, h⟩
      | some v =>
        simp only [hg, Option.some.injEq, Prod.mk.injEq] at hc
        obtain ⟨-, hdb1⟩ := hc
        subst hdb1
        refine ⟨hn, fun parties hp => ?_⟩
        simp only [Option.some.injEq] at hp
        subst hp
        refine ⟨hn, fun e he => ?_⟩
        rcases mem_db_overwrite _ _ _ _ he with h1 | ⟨h1, v0, hv0⟩
        · exact hm.2 e h1
        · subst h1
          obtain ⟨a, -, c⟩ := hm.2 _ hv0
          exact ⟨a, rfl, c⟩
  | remove party_id r _ hc =>
    unfold party_db_txt_remove at hc
    cases hdb : db.parties with
    | none => simp [hdb] at hc
    | some m =>
      simp only [hdb, Option.some.injEq, Prod.mk.injEq] at hc
      obtain ⟨-, hdb1⟩ := hc
      subst hdb1
      have hm := h m hdb
      refine ⟨hn, fun parties hp => ?_⟩
      simp only [Option.some.injEq] at hp
      subst hp
      exact ⟨hn, fun e he => hm.2 e (mem_idb_remove _ _ _ he)⟩
  | sync lock_ok r _ out hc =>
    unfold party_db_txt_sync at hc
    split at hc
    · simp only [Option.some.injEq, Prod.mk.injEq] at hc
      obtain ⟨-, hdb1, -⟩ := hc
      subst hdb1
      exact ⟨hn, h⟩
    · cases hdb : db.parties with
      | none => simp [hdb] at hc
      | some m =>
        simp only [hdb, Option.some.injEq, Prod.mk.injEq] at hc
        obtain ⟨-, hdb1, -⟩ := hc
        subst hdb1
        exact ⟨hn, fun parties hp => h parties (by rw [hdb]; exact hp)⟩

theorem reachable_below_max_inv (db : PartyDB_TXT) (h : ReachableBelowMax db) :
    is_int db.next_party_id ∧
      ∀ parties, db.parties = some parties → store_inv parties db.next_party_id := by
  induction h with
  | fresh =>
    refine ⟨by decide, ?_⟩
    intro parties hp
    simp [party_db_txt] at hp
  | step db db1 _ hs hb ih => exact step_inv db db1 hs hb ih.1 ih.2

/-- C2 (as amended): in every state reached from a newly constructed back end
by init (on any file, or none), create, save, remove and sync, as long as no
record with id `INT_MAX` is stored along the way, `next_party_id` is strictly
greater than the id of every record in the store. -/
theorem watermark_above_all_ids (db : PartyDB_TXT) (h : ReachableBelowMax db) :
    watermark_above db := by
  intro parties hp r hr
  obtain ⟨-, hinv⟩ := reachable_below_max_inv db h
  obtain ⟨-, hm⟩ := hinv parties hp
  simp only [db_iterate, List.mem_map] at hr
  obtain ⟨e, he, rfl⟩ := hr
  obtain ⟨-, b, c⟩ := hm e he
  omega

/-- Witness of C2 (as amended): the store after loading an empty file and
creating a first party. -/
theorem watermark_above_all_ids_witness :
    ReachableBelowMax
      { parties := some [(1, blank_party 1 (bytes "A"))], next_party_id := 2, dirty := true,
        case_sensitive := false, owner_sync_requests := 1 } ∧
    watermark_above
      { parties := some [(1, blank_party 1 (bytes "A"))], next_party_id := 2, dirty := true,
        case_sensitive := false, owner_sync_requests := 1 } :=
  have hr : ReachableBelowMax
      { parties := some [(1, blank_party 1 (bytes "A"))], next_party_id := 2, dirty := true,
        case_sensitive := false, owner_sync_requests := 1 } :=
    ReachableBelowMax.step empty_store _
      (ReachableBelowMax.step party_db_txt empty_store ReachableBelowMax.fresh
        (Step.init party_db_txt (some [])) (by intro parties hp; cases hp; decide))
      (Step.create empty_store (blank_party (-1) (bytes "A")) true _
        (blank_party 1 (bytes "A")) (by decide) (by decide))
      (by intro parties hp; cases hp; decide)
  ⟨hr, watermark_above_all_ids _ hr⟩

/-- C2 fails as stated: loading an empty file and creating a party with the
explicit id `INT_MAX` reaches a state whose `next_party_id` is `INT_MIN`,
below the id of the stored record. -/
theorem watermark_fails_at_int_max :
    Reachable store_at_int_max ∧ ¬ watermark_above store_at_int_max := by
  constructor
  · exact Reachable.step empty_store _
      (Reachable.step party_db_txt empty_store Reachable.fresh
        (Step.init party_db_txt (some [])))
      (Step.create empty_store (blank_party 2147483647 (bytes "A")) true _
        (blank_party 2147483647 (bytes "A")) (by decide) (by decide))
  · intro h
    have := h _ rfl (blank_party 2147483647 (bytes "A")) (by decide)
    revert this
    decide

/-! ## Reading the file line by line -/

theorem fgets_buf_length (n : Nat) (fp : List Nat) :
    (fgets_buf n fp).1.length + (fgets_buf n fp).2.length = fp.length := by
  induction n generalizing fp with
  | zero => simp [fgets_buf]
  | succ n ih =>
    cases fp with
    | nil => simp [fgets_buf]
    | cons c fp =>
      unfold fgets_buf
      split
      · simp; omega
      · have := ih fp
        simp only [List.length_cons]
        omega

theorem fgets_buf_ne_nil (n : Nat) (c : Nat) (fp : List Nat) :
    (fgets_buf (n + 1) (c :: fp)).1 ≠ [] := by
  unfold fgets_buf
  split <;> simp

theorem fgets_rest_shorter (fp buf fp1 : List Nat) (h : fgets LINE_SIZE fp = some (buf, fp1)) :
    fp1.length < fp.length := by
  unfold fgets at h
  cases fp with
  | nil => cases h
  | cons c fp =>
    simp only [Option.some.injEq] at h
    have hl := fgets_buf_length (LINE_SIZE - 1) (c :: fp)
    have hne := fgets_buf_ne_nil 8190 c fp
    have e : LINE_SIZE - 1 = 8190 + 1 := by decide
    rw [e] at h hl
    rw [h] at hl hne
    simp only at hl hne
    have : 0 < buf.length := List.length_pos.2 hne
    omega

theorem init_loop_nil (f : Nat) (m : DBMap) (n : Int) : init_loop f [] m n = (m, n) := by
  cases f <;> simp [init_loop, fgets]

theorem init_loop_fuel_eq (f g : Nat) (fp : List Nat) (m : DBMap) (n : Int)
    (hf : fp.length ≤ f) (hg : fp.length ≤ g) : init_loop f fp m n = init_loop g fp m n := by
  induction f generalizing g fp m n with
  | zero =>
    have : fp = [] := List.length_eq_zero.1 (by omega)
    subst this
    rw [init_loop_nil, init_loop_nil]
  | succ f ih =>
    cases g with
    | zero =>
      have : fp = [] := List.length_eq_zero.1 (by omega)
      subst this
      rw [init_loop_nil, init_loop_nil]
    | succ g =>
      unfold init_loop
      cases hgets : fgets LINE_SIZE fp with
      | none => rfl
      | some r =>
        obtain ⟨buf, fp1⟩ := r
        have hlt := fgets_rest_shorter _ _ _ hgets
        simp only
        exact ih g fp1 _ _ (by omega) (by omega)

theorem init_loop_fuel (f : Nat) (fp : List Nat) (m : DBMap) (n : Int)
    (h : fp.length ≤ f) : init_loop f fp m n = init_loop fp.length fp m n :=
  init_loop_fuel_eq f fp.length fp m n h (Nat.le_refl _)

theorem fgets_buf_line (body : List Nat) (hb : LF ∉ body) (n : Nat) (hn : body.length < n)
    (rest : List Nat) :
    fgets_buf n (body ++ LF :: rest) = (body ++ [LF], rest) := by
  induction body generalizing n with
  | nil =>
    cases n with
    | zero => omega
    | succ n => simp [fgets_buf]
  | cons c body ih =>
    cases n with
    | zero => omega
    | succ n =>
      have hc : c ≠ LF := fun h => hb (by rw [h]; exact List.mem_cons_self _ _)
      have hb1 : LF ∉ body := fun h => hb (List.mem_cons_of_mem _ h)
      rw [List.cons_append, fgets_buf, if_neg hc,
        ih hb1 n (by simpa using hn)]
      rfl

theorem fgets_of_ne_nil (size : Nat) (fp : List Nat) (h : fp ≠ []) :
    fgets size fp = some (fgets_buf (size - 1) fp) := by
  cases fp with
  | nil => exact absurd rfl h
  | cons c fp => rfl

theorem fgets_line (l : List Nat) (hl : is_line l) (rest : List Nat) :
    fgets LINE_SIZE (l ++ rest) = some (l, rest) := by
  obtain ⟨body, rfl, hb, hlen⟩ := hl
  have hlt : body.length < LINE_SIZE - 1 := by
    simp only [List.length_append, List.length_singleton] at hlen
    omega
  have hbuf := fgets_buf_line body hb (LINE_SIZE - 1) hlt rest
  have he : (body ++ [LF]) ++ rest = body ++ LF :: rest := by simp
  rw [he, fgets_of_ne_nil _ _ (by simp), hbuf]

theorem init_loop_line (l : List Nat) (hl : is_line l) (rest : List Nat) (m : DBMap)
    (n : Int) :
    init_loop (l ++ rest).length (l ++ rest) m n =
      init_loop rest.length rest (init_line (c_str l) m n).1 (init_line (c_str l) m n).2 := by
  have hpos : 0 < l.length := by
    obtain ⟨body, rfl, -, -⟩ := hl
    simp
  obtain ⟨k, hk⟩ : ∃ k, (l ++ rest).length = k + 1 :=
    ⟨l.length + rest.length - 1, by simp only [List.length_append]; omega⟩
  rw [hk, init_loop, fgets_line l hl rest]
  simp only
  apply init_loop_fuel
  simp only [List.length_append] at hk
  omega

theorem init_loop_lines (ls : List (List Nat)) (hls : ∀ l ∈ ls, is_line l)
    (rest : List Nat) (m : DBMap) (n : Int) :
    init_loop (ls.flatten ++ rest).length (ls.flatten ++ rest) m n =
      init_loop rest.length rest (init_lines ls m n).1 (init_lines ls m n).2 := by
  induction ls generalizing m n with
  | nil => rfl
  | cons l ls ih =>
    simp only [List.flatten_cons, List.append_assoc]
    rw [init_loop_line l (hls l (List.mem_cons_self _ _))]
    rw [ih (fun x hx => hls x (List.mem_cons_of_mem _ hx))]
    rfl

theorem idb_put_absent (m : DBMap) (k : Int) (v : party_data) (h : k ∉ db_keys m) :
    idb_put m k v = m ++ [(k, v)] := by
  induction m with
  | nil => rfl
  | cons e m ih =>
    obtain ⟨k1, v1⟩ := e
    simp only [db_keys, List.map_cons, List.mem_cons, not_or] at h
    have hne : ¬ k1 = k := fun he => h.1 he.symm
    rw [idb_put, if_neg hne, ih h.2]
    rfl

theorem init_lines_records (ls : List (List Nat)) (rs : List party)
    (hd : List.Forall₂ decodes_to ls rs) (m : DBMap) (n : Int)
    (hnd : (db_keys m ++ rs.map party.party_id).Nodup) :
    (init_lines ls m n).1 = m ++ entries_of rs := by
  induction hd generalizing m n with
  | nil => simp [init_lines, entries_of]
  | @cons l r ls rs hlr _ ih =>
    obtain ⟨h1, h2⟩ := hlr
    have hk : r.party_id ∉ db_keys m := by
      intro hmem
      have := List.nodup_append.1 hnd
      exact this.2.2 hmem (by simp)
    have hput := idb_put_absent m r.party_id { party := r } hk
    unfold init_lines
    have hline : (init_line (c_str l) m n).1 = m ++ [(r.party_id, { party := r })] := by
      unfold init_line
      simp only [h1, h2, hput]
    rw [hline, ih]
    · simp [entries_of]
    · simp only [db_keys, List.map_append, List.map_cons, List.map_nil, List.append_assoc,
        List.singleton_append] at hnd ⊢
      exact hnd

theorem print_int_length (v : Int) (hv : is_int v) : (print_int v).length ≤ 11 := by
  unfold is_int INT_MIN INT_MAX at hv
  unfold print_int
  split
  · have := print_nat_fuel_length ((-v).toNat + 1) (-v).toNat 9 (by omega)
    simp only [List.length_cons, print_nat]
    omega
  · have := print_nat_fuel_length (v.toNat + 1) v.toNat 9 (by omega)
    simp only [print_nat]
    omega

theorem tostr_members_length (n : Nat) (ms : List party_member) (hlen : ms.length = n)
    (hv : ∀ m ∈ ms, valid_member m) : (tostr_members n ms).length ≤ 36 * n := by
  induction n generalizing ms with
  | zero => simp [tostr_members]
  | succ n ih =>
    cases ms with
    | nil => simp at hlen
    | cons m ms =>
      obtain ⟨h1, h2, h3⟩ := hv m (List.mem_cons_self _ _)
      have := ih ms (by simpa using hlen) (fun x hx => hv x (List.mem_cons_of_mem _ hx))
      have a := print_int_length _ h1
      have b := print_int_length _ h2
      have c := print_int_length _ (is_int_of_flag _ h3)
      simp only [tostr_members, List.headD_cons, List.tail_cons, List.length_append,
        List.length_cons]
      omega

theorem tostr_length (p : party) (hv : valid_record p) : (mmo_party_tostr p).length ≤ 492 := by
  obtain ⟨hid, -, hlen, -, hexp, hitem, hm, hmv⟩ := hv
  have a := print_int_length _ hid
  have b := print_int_length _ (is_int_of_flag _ hexp)
  have c := print_int_length _ hitem
  have d := tostr_members_length MAX_PARTY p.member hm hmv
  have e : MAX_PARTY = 12 := rfl
  simp only [mmo_party_tostr, List.length_append, List.length_cons]
  omega

theorem mem_tostr_members (n : Nat) (ms : List party_member) (c : Nat)
    (h : c ∈ tostr_members n ms) : is_group_byte c = true ∨ c = TAB := by
  induction n generalizing ms with
  | zero => simp [tostr_members] at h
  | succ n ih =>
    simp only [tostr_members, List.append_assoc, List.cons_append, List.mem_append,
      List.mem_cons] at h
    rcases h with h | h | h | h | h | h | h
    · exact Or.inl (by simp [is_group_byte, print_int_bytes _ c h])
    · subst h; exact Or.inl (by decide)
    · exact Or.inl (by simp [is_group_byte, print_int_bytes _ c h])
    · subst h; exact Or.inl (by decide)
    · exact Or.inl (by simp [is_group_byte, print_int_bytes _ c h])
    · exact Or.inr h
    · exact ih _ h

theorem mem_tostr (p : party) (c : Nat) (h : c ∈ mmo_party_tostr p) :
    is_group_byte c = true ∨ c = TAB ∨ c ∈ p.name := by
  simp only [mmo_party_tostr, List.append_assoc, List.cons_append, List.mem_append,
    List.mem_cons] at h
  rcases h with h | h | h | h | h | h | h | h | h
  · exact Or.inl (by simp [is_group_byte, print_int_bytes _ c h])
  · exact Or.inr (Or.inl h)
  · exact Or.inr (Or.inr h)
  · exact Or.inr (Or.inl h)
  · exact Or.inl (by simp [is_group_byte, print_int_bytes _ c h])
  · subst h; exact Or.inl (by decide)
  · exact Or.inl (by simp [is_group_byte, print_int_bytes _ c h])
  · exact Or.inr (Or.inl h)
  · rcases mem_tostr_members _ _ _ h with h | h
    · exact Or.inl h
    · exact Or.inr (Or.inl h)

theorem group_byte_plain (c : Nat) (h : is_group_byte c = true) :
    c ≠ 0 ∧ c ≠ LF ∧ c ≠ CR ∧ c ≠ PERCENT := by
  simp only [is_group_byte, is_number_byte, isdigit, MINUS, COMMA, Bool.or_eq_true,
    Bool.and_eq_true, decide_eq_true_eq, beq_iff_eq] at h
  unfold LF CR PERCENT
  omega

theorem tostr_bytes_plain (p : party) (hv : valid_record p) (c : Nat)
    (h : c ∈ mmo_party_tostr p) : c ≠ 0 ∧ c ≠ LF ∧ c ≠ CR := by
  rcases mem_tostr p c h with h | h | h
  · have := group_byte_plain c h
    exact ⟨this.1, this.2.1, this.2.2.1⟩
  · subst h; decide
  · have := hv.2.2.2.1 c h
    exact ⟨this.1, this.2.2.1, this.2.2.2⟩

theorem tostr_members_ends (n : Nat) (ms : List party_member) :
    tostr_members n ms = [] ∨ ∃ body, tostr_members n ms = body ++ [TAB] := by
  induction n generalizing ms with
  | zero => exact Or.inl rfl
  | succ n ih =>
    right
    rcases ih ms.tail with h | ⟨body, h⟩
    · refine ⟨print_int (ms.headD party_member.zero).account_id ++ COMMA ::
        (print_int (ms.headD party_member.zero).char_id ++ COMMA ::
        print_int (ms.headD party_member.zero).leader), ?_⟩
      simp [tostr_members, h]
    · refine ⟨print_int (ms.headD party_member.zero).account_id ++ COMMA ::
        (print_int (ms.headD party_member.zero).char_id ++ COMMA ::
        (print_int (ms.headD party_member.zero).leader ++ TAB :: body)), ?_⟩
      simp [tostr_members, h]

theorem tostr_ends (p : party) : ∃ body, mmo_party_tostr p = body ++ [TAB] := by
  rcases tostr_members_ends MAX_PARTY p.member with h | ⟨body, h⟩
  · refine ⟨print_int p.party_id ++ TAB :: (p.name ++ TAB :: (print_int p.exp ++ COMMA ::
      print_int p.item)), ?_⟩
    simp [mmo_party_tostr, h]
  · refine ⟨print_int p.party_id ++ TAB :: (p.name ++ TAB :: (print_int p.exp ++ COMMA ::
      (print_int p.item ++ TAB :: body))), ?_⟩
    simp [mmo_party_tostr, h]

theorem c_str_of_no_nul (s : List Nat) (h : ∀ c ∈ s, c ≠ 0) : c_str s = s := by
  induction s with
  | nil => rfl
  | cons c s ih =>
    rw [c_str, if_neg (h c (List.mem_cons_self _ _)),
      ih (fun x hx => h x (List.mem_cons_of_mem _ hx))]

/-! ## The auto-increment line -/

theorem skip_ws_suffix (s : List Nat) : ∃ pre, s = pre ++ skip_ws s := by
  induction s with
  | nil => exact ⟨[], rfl⟩
  | cons c s ih =>
    unfold skip_ws
    split
    · obtain ⟨pre, h⟩ := ih
      exact ⟨c :: pre, by rw [List.cons_append, ← h]⟩
    · exact ⟨[], rfl⟩

theorem scan_digits_suffix (s : List Nat) (acc : Nat) :
    ∃ pre, s = pre ++ (scan_digits s acc).2 := by
  induction s generalizing acc with
  | nil => exact ⟨[], rfl⟩
  | cons c s ih =>
    unfold scan_digits
    split
    · obtain ⟨pre, h⟩ := ih (acc * 10 + (c - 48))
      exact ⟨c :: pre, by rw [List.cons_append, ← h]⟩
    · exact ⟨[], rfl⟩

theorem scan_unsigned_suffix (s : List Nat) (v : Nat) (rest : List Nat)
    (h : scan_unsigned s = some (v, rest)) : ∃ pre, s = pre ++ rest ∧ pre ≠ [] := by
  cases s with
  | nil => simp [scan_unsigned] at h
  | cons c s =>
    rw [scan_unsigned] at h
    split at h
    · rename_i hc
      simp only [Option.some.injEq] at h
      rw [scan_digits, if_pos hc] at h
      obtain ⟨pre, hp⟩ := scan_digits_suffix s (0 * 10 + (c - 48))
      rw [h] at hp
      exact ⟨c :: pre, by rw [List.cons_append, ← hp], by simp⟩
    · cases h

theorem scan_int_suffix (s : List Nat) (v : Int) (rest : List Nat)
    (h : scan_int s = some (v, rest)) : ∃ pre, s = pre ++ rest ∧ pre ≠ [] := by
  obtain ⟨p0, hp0⟩ := skip_ws_suffix s
  unfold scan_int at h
  split at h
  · cases h
  · rename_i c t hs
    rw [hs] at hp0
    split at h
    · simp only [Option.map_eq_some', Prod.mk.injEq] at h
      obtain ⟨r, hr, -, h2⟩ := h
      obtain ⟨pre, hp, -⟩ := scan_unsigned_suffix t r.1 r.2 hr
      rw [h2] at hp
      exact ⟨p0 ++ c :: pre, by rw [hp0, hp]; simp, by simp⟩
    · split at h
      · simp only [Option.map_eq_some', Prod.mk.injEq] at h
        obtain ⟨r, hr, -, h2⟩ := h
        obtain ⟨pre, hp, -⟩ := scan_unsigned_suffix t r.1 r.2 hr
        rw [h2] at hp
        exact ⟨p0 ++ c :: pre, by rw [hp0, hp]; simp, by simp⟩
      · simp only [Option.map_eq_some', Prod.mk.injEq] at h
        obtain ⟨r, hr, -, h2⟩ := h
        obtain ⟨pre, hp, hne⟩ := scan_unsigned_suffix (c :: t) r.1 r.2 hr
        rw [h2] at hp
        exact ⟨p0 ++ pre, by rw [hp0, hp]; simp, by simp [hne]⟩

theorem scan_char_eq (c : Nat) (s rest : List Nat) (h : scan_char c s = some rest) :
    s = c :: rest := by
  cases s with
  | nil => simp [scan_char] at h
  | cons a s =>
    rw [scan_char] at h
    split at h
    · rename_i ha
      simp only [Option.some.injEq] at h
      rw [ha, h]
    · cases h

theorem scan_lit_eq (lit s rest : List Nat) (h : scan_lit lit s = some rest) :
    s = lit ++ rest := by
  induction lit generalizing s with
  | nil =>
    simp only [scan_lit, Option.some.injEq] at h
    simp [h]
  | cons c lit ih =>
    simp only [scan_lit, Option.bind_eq_some] at h
    obtain ⟨s1, h1, h2⟩ := h
    rw [scan_char_eq c s s1 h1, ih s1 h2]
    rfl

theorem scan_newid_shape (line : List Nat) (id : Int) (n : Nat)
    (h : scan_newid line = some (id, n)) (hn : 0 < n) :
    ∃ pre rest, line = pre ++ PERCENT :: rest ∧ n = pre.length + 1 := by
  unfold scan_newid at h
  split at h
  · cases h
  · rename_i v s1 hv
    split at h
    · simp only [Option.some.injEq, Prod.mk.injEq] at h
      omega
    · rename_i rest hr
      simp only [Option.some.injEq, Prod.mk.injEq] at h
      obtain ⟨-, hn2⟩ := h
      simp only [Option.bind_eq_some] at hr
      obtain ⟨s4, ⟨s3, h3, h4⟩, h5⟩ := hr
      obtain ⟨p1, hp1, -⟩ := scan_int_suffix line v s1 hv
      obtain ⟨p2, hp2⟩ := skip_ws_suffix s1
      obtain ⟨p3, hp3⟩ := skip_ws_suffix (skip_ws s1)
      have e3 := scan_char_eq _ _ _ h3
      have e4 := scan_lit_eq _ _ _ h4
      obtain ⟨p5, hp5⟩ := skip_ws_suffix s4
      have e5 := scan_char_eq _ _ _ h5
      refine ⟨p1 ++ (p2 ++ (p3 ++ PERCENT :: ([110, 101, 119, 105, 100] ++ p5))), rest, ?_, ?_⟩
      · rw [hp1, hp2, hp3, e3, e4, hp5, e5]
        simp
      · rw [← hn2]
        have hl : line = (p1 ++ (p2 ++ (p3 ++ PERCENT :: ([110, 101, 119, 105, 100] ++ p5))))
            ++ PERCENT :: rest := by
          rw [hp1, hp2, hp3, e3, e4, hp5, e5]
          simp
        have := congrArg List.length hl
        simp only [List.length_append, List.length_cons] at this ⊢
        omega

theorem newid_line_shape (line : List Nat) (id : Int) (h : newid_line line = some id) :
    ∃ pre c rest, line = pre ++ PERCENT :: c :: rest ∧ (c = LF ∨ c = CR) := by
  unfold newid_line at h
  split at h
  · cases h
  · rename_i pid n hs
    split at h
    · rename_i hc
      obtain ⟨hn, hch⟩ := hc
      obtain ⟨pre, rest, hl, hlen⟩ := scan_newid_shape line pid n hs hn
      have hget : line.getD n 0 = rest.headD 0 := by
        rw [hl, hlen]
        have e : pre ++ PERCENT :: rest = (pre ++ [PERCENT]) ++ rest := by simp
        rw [e, List.getD_append_right _ _ _ _ (by simp)]
        simp only [List.length_append, List.length_singleton, Nat.sub_self]
        cases rest <;> rfl
      cases rest with
      | nil =>
        rw [hget] at hch
        simp [LF, CR] at hch
      | cons c rest =>
        rw [hget] at hch
        exact ⟨pre, c, rest, hl, by simpa using hch⟩
    · cases h

theorem newid_line_record (p : party) (hv : valid_record p) :
    newid_line (mmo_party_tostr p ++ [LF]) = none := by
  cases h : newid_line (mmo_party_tostr p ++ [LF]) with
  | none => rfl
  | some id =>
    exfalso
    obtain ⟨pre, c, rest, hl, hc⟩ := newid_line_shape _ _ h
    obtain ⟨body, hb⟩ := tostr_ends p
    have hplain := tostr_bytes_plain p hv
    rcases List.append_eq_append_iff.1 hl with ⟨a, ha, hb2⟩ | ⟨a, ha, hb2⟩
    · -- pre = tostr ++ a, [LF] = a ++ PERCENT :: c :: rest
      have := congrArg List.length hb2
      simp only [List.length_append, List.length_cons, List.length_nil] at this
      omega
    · -- tostr = pre ++ a, PERCENT :: c :: rest = a ++ [LF]
      cases a with
      | nil => simp at hb2
      | cons x a =>
        cases a with
        | nil =>
          simp only [List.cons_append, List.nil_append, List.cons.injEq] at hb2
          obtain ⟨hx, -, -⟩ := hb2
          rw [hb, ← hx] at ha
          have := congrArg List.getLast? ha
          simp [TAB, PERCENT] at this
        | cons y a =>
          simp only [List.cons_append, List.cons.injEq] at hb2
          obtain ⟨-, hy, -⟩ := hb2
          have hmem : c ∈ mmo_party_tostr p := by
            rw [ha, hy]; simp
          have := hplain c hmem
          rcases hc with hc | hc
          · exact this.2.1 hc
          · exact this.2.2 hc

theorem record_line_is_line (p : party) (hv : valid_record p) :
    is_line (mmo_party_tostr p ++ [LF]) := by
  refine ⟨mmo_party_tostr p, rfl, fun h => (tostr_bytes_plain p hv LF h).2.1 rfl, ?_⟩
  have := tostr_length p hv
  simp only [List.length_append, List.length_singleton, LINE_SIZE]
  omega

theorem record_line_c_str (p : party) (hv : valid_record p) :
    c_str (mmo_party_tostr p ++ [LF]) = mmo_party_tostr p ++ [LF] := by
  apply c_str_of_no_nul
  intro c hc
  rcases List.mem_append.1 hc with h | h
  · exact (tostr_bytes_plain p hv c h).1
  · simp only [List.mem_singleton] at h
    subst h; decide

theorem record_line_decodes (p : party) (hv : valid_record p) (hs : plain_start p.name) :
    decodes_to (mmo_party_tostr p ++ [LF]) p := by
  unfold decodes_to
  rw [record_line_c_str p hv]
  exact ⟨newid_line_record p hv, fromstr_tostr_append p hv hs [LF]⟩

theorem newid_tail_scan :
    (((scan_char PERCENT (skip_ws (skip_ws [TAB, PERCENT, 110, 101, 119, 105, 100, PERCENT, LF]))).bind
        (scan_lit [110, 101, 119, 105, 100])).bind
        fun s => scan_char PERCENT (skip_ws s)) = some [LF] := by
  decide

theorem sync_newid_recognised (n : Int) (hn : is_int n) :
    newid_line (sync_newid n) = some n := by
  have h1 : scan_int (sync_newid n)
      = some (n, [TAB, PERCENT, 110, 101, 119, 105, 100, PERCENT, LF]) :=
    scan_int_print_int n hn _ (stopsNumber_tab _)
  have h2 : scan_newid (sync_newid n) = some (n, (sync_newid n).length - 1) := by
    unfold scan_newid
    rw [h1]
    simp only [newid_tail_scan, List.length_singleton]
  have h3 : (sync_newid n).length - 1 = (print_int n ++ [TAB, PERCENT, 110, 101, 119, 105, 100,
      PERCENT]).length := by
    simp [sync_newid]
  have h4 : sync_newid n = (print_int n ++ [TAB, PERCENT, 110, 101, 119, 105, 100, PERCENT])
      ++ [LF] := by
    simp [sync_newid]
  have h5 : (sync_newid n).getD ((sync_newid n).length - 1) 0 = LF := by
    rw [h3, h4, List.getD_append_right _ _ _ _ (Nat.le_refl _)]
    simp
  unfold newid_line
  rw [h2]
  simp only [h5, true_or, and_true]
  rw [if_pos]
  rw [h3]
  simp

theorem sync_newid_is_line (n : Int) (hn : is_int n) : is_line (sync_newid n) := by
  refine ⟨print_int n ++ [TAB, PERCENT, 110, 101, 119, 105, 100, PERCENT], by simp [sync_newid],
    ?_, ?_⟩
  · intro h
    rcases List.mem_append.1 h with h | h
    · have := print_int_bytes n LF h
      revert this; decide
    · revert h; decide
  · have := print_int_length n hn
    simp only [sync_newid, List.length_append, List.length_cons, List.length_nil, LINE_SIZE]
    omega

theorem sync_newid_c_str (n : Int) : c_str (sync_newid n) = sync_newid n := by
  apply c_str_of_no_nul
  intro c hc
  rcases List.mem_append.1 hc with h | h
  · have := print_int_bytes n c h
    intro h0
    subst h0
    revert this; decide
  · intro h0
    subst h0
    revert h; decide

theorem sync_records_flatten (ps : List party_data) :
    sync_records ps = (ps.map fun p => mmo_party_tostr p.party ++ [LF]).flatten := by
  induction ps with
  | nil => rfl
  | cons p ps ih => simp [sync_records, ih]

theorem entries_of_iterate (m : DBMap) (h : ∀ e ∈ m, e.2.party.party_id = e.1) :
    entries_of ((db_iterate m).map party_data.party) = m := by
  induction m with
  | nil => rfl
  | cons e m ih =>
    have he := h e (List.mem_cons_self _ _)
    have := ih (fun x hx => h x (List.mem_cons_of_mem _ hx))
    simp only [entries_of, db_iterate, List.map_cons, List.map_map] at this ⊢
    rw [this, he]

/-- Loading what sync writes: for a store whose keys are distinct and equal
the ids of their records, all of them valid records with names that do not
begin with white space, the loop of `party_db_txt_init` rebuilds the map from
the file of `party_db_txt_sync`. -/
theorem init_loop_sync (m : DBMap) (n n0 : Int) (hn : is_int n)
    (hnd : (db_keys m).Nodup)
    (hm : ∀ e ∈ m, e.2.party.party_id = e.1 ∧ valid_record e.2.party ∧
      plain_start e.2.party.name) :
    (init_loop (sync_records (db_iterate m) ++ sync_newid n).length
      (sync_records (db_iterate m) ++ sync_newid n) [] n0).1 = m := by
  have hlines : ∀ l ∈ (db_iterate m).map (fun p => mmo_party_tostr p.party ++ [LF]),
      is_line l := by
    intro l hl
    simp only [db_iterate, List.map_map, List.mem_map, Function.comp] at hl
    obtain ⟨e, he, rfl⟩ := hl
    exact record_line_is_line _ (hm e he).2.1
  have hdec : List.Forall₂ decodes_to
      ((db_iterate m).map (fun p => mmo_party_tostr p.party ++ [LF]))
      ((db_iterate m).map party_data.party) := by
    rw [List.forall₂_map_left_iff, List.forall₂_map_right_iff, List.forall₂_same]
    intro p hp
    simp only [db_iterate, List.mem_map] at hp
    obtain ⟨e, he, rfl⟩ := hp
    exact record_line_decodes _ (hm e he).2.1 (hm e he).2.2
  have hids : ((db_iterate m).map party_data.party).map party.party_id = db_keys m := by
    simp only [db_iterate, db_keys, List.map_map]
    apply List.map_congr_left
    intro e he
    exact (hm e he).1
  rw [sync_records_flatten, init_loop_lines _ hlines]
  have hlast := init_loop_line (sync_newid n) (sync_newid_is_line n hn) []
  simp only [List.append_nil] at hlast
  rw [hlast, sync_newid_c_str]
  simp only [List.length_nil, init_loop]
  unfold init_line
  rw [sync_newid_recognised n hn]
  simp only
  rw [init_lines_records _ _ hdec [] n0 (by simpa [db_keys, hids] using hnd)]
  simp only [List.nil_append]
  exact entries_of_iterate m (fun e he => (hm e he).1)

/-! ## Sync followed by a fresh load -/

theorem db_keys_remove_sublist (m : DBMap) (k : Int) :
    (db_keys (idb_remove m k)).Sublist (db_keys m) := by
  induction m with
  | nil => exact List.Sublist.refl _
  | cons e m ih =>
    obtain ⟨k1, v1⟩ := e
    unfold idb_remove
    split
    · exact List.Sublist.cons _ ih
    · exact List.Sublist.cons₂ _ ih

theorem valid_record_with_id (p : party) (id : Int) (hv : valid_record p) (hid : is_int id) :
    valid_record { p with party_id := id } := by
  obtain ⟨-, h2, h3, h4, h5, h6, h7, h8⟩ := hv
  exact ⟨hid, h2, h3, h4, h5, h6, h7, h8⟩

theorem crud_inv_create (db : PartyDB_TXT) (p : party_data) (r : Bool) (db1 : PartyDB_TXT)
    (p1 : party_data) (h : crud_inv db) (hp : valid_input p)
    (hc : party_db_txt_create db p = some (r, db1, p1)) : crud_inv db1 := by
  obtain ⟨hn, m, hdb, hnd, hm⟩ := h
  unfold party_db_txt_create at hc
  simp only [hdb] at hc
  cases hg : idb_get m (create_party_id db p) with
  | some v =>
    simp only [hg, Option.some.injEq, Prod.mk.injEq] at hc
    obtain ⟨-, hdb1, -⟩ := hc
    subst hdb1
    exact ⟨hn, m, hdb, hnd, hm⟩
  | none =>
    simp only [hg, Option.some.injEq, Prod.mk.injEq] at hc
    obtain ⟨-, hdb1, -⟩ := hc
    subst hdb1
    have hid : is_int (create_party_id db p) := by
      unfold create_party_id
      split
      · exact hp.1.1
      · exact hn
    have hk := (idb_get_none_iff_not_mem_keys m _).1 hg
    refine ⟨?_, _, rfl, ?_, ?_⟩
    · simp only
      split
      · exact wrap32_is_int _
      · exact hn
    · rw [idb_put_absent m _ _ hk]
      simp only [db_keys, List.map_append, List.map_cons, List.map_nil]
      rw [List.nodup_append]
      refine ⟨hnd, List.nodup_singleton _, ?_⟩
      intro x hx hx2
      simp only [List.mem_singleton] at hx2
      subst hx2
      exact hk hx
    · intro e he
      rcases mem_idb_put _ _ _ _ he with h1 | h1
      · exact hm e h1
      · subst h1
        exact ⟨rfl, valid_record_with_id _ _ hp.1 hid, hp.2⟩

theorem crud_inv_save (db : PartyDB_TXT) (p : party_data) (r : Bool) (db1 : PartyDB_TXT)
    (h : crud_inv db) (hp : valid_input p)
    (hc : party_db_txt_save db p = some (r, db1)) : crud_inv db1 := by
  obtain ⟨hn, m, hdb, hnd, hm⟩ := h
  unfold party_db_txt_save at hc
  simp only [hdb] at hc
  cases hg : idb_get m p.party.party_id with
  | none =>
    simp only [hg, Option.some.injEq, Prod.mk.injEq] at hc
    obtain ⟨-, hdb1⟩ := hc
    subst hdb1
    exact ⟨hn, m, hdb, hnd, hm⟩
  | some v =>
    simp only [hg, Option.some.injEq, Prod.mk.injEq] at hc
    obtain ⟨-, hdb1⟩ := hc
    subst hdb1
    refine ⟨hn, _, rfl, ?_, ?_⟩
    · rw [db_keys_overwrite]
      exact hnd
    · intro e he
      rcases mem_db_overwrite _ _ _ _ he with h1 | ⟨h1, -⟩
      · exact hm e h1
      · subst h1
        exact ⟨rfl, hp.1, hp.2⟩

theorem crud_inv_remove (db : PartyDB_TXT) (party_id : Int) (r : Bool) (db1 : PartyDB_TXT)
    (h : crud_inv db) (hc : party_db_txt_remove db party_id = some (r, db1)) :
    crud_inv db1 := by
  obtain ⟨hn, m, hdb, hnd, hm⟩ := h
  unfold party_db_txt_remove at hc
  simp only [hdb, Option.some.injEq, Prod.mk.injEq] at hc
  obtain ⟨-, hdb1⟩ := hc
  subst hdb1
  exact ⟨hn, _, rfl, hnd.sublist (db_keys_remove_sublist m party_id),
    fun e he => hm e (mem_idb_remove _ _ _ he)⟩

theorem reachable_crud_valid_inv (db : PartyDB_TXT) (h : ReachableCrudValid db) :
    crud_inv db := by
  induction h with
  | empty => exact ⟨by decide, [], rfl, List.nodup_nil, by simp⟩
  | create db p r db1 p1 _ hp hc ih => exact crud_inv_create db p r db1 p1 ih hp hc
  | save db p r db1 _ hp hc ih => exact crud_inv_save db p r db1 ih hp hc
  | remove db party_id r db1 _ hc ih => exact crud_inv_remove db party_id r db1 ih hc

/-- C10 (as amended): for every state reached from the empty store by create
and save of valid records whose names do not begin with white space, and
remove, `party_db_txt_sync` succeeds, and `party_db_txt_init` on a newly
constructed back end reads the written file with success into a store with
the same keys and, under every id, the same record: name, both flags and all
member slots in order. -/
theorem sync_init_fidelity (db : PartyDB_TXT) (h : ReachableCrudValid db) :
    ∃ parties db1 file, db.parties = some parties ∧
      party_db_txt_sync db true = some (true, db1, some file) ∧
      (party_db_txt_init party_db_txt (some file)).1 = true ∧
      ∃ parties2, (party_db_txt_init party_db_txt (some file)).2.parties = some parties2 ∧
        db_keys parties2 = db_keys parties ∧
        ∀ id, idb_get parties2 id = idb_get parties id := by
  obtain ⟨hn, m, hdb, hnd, hm⟩ := reachable_crud_valid_inv db h
  refine ⟨m, { db with dirty := false },
    sync_records (db_iterate m) ++ sync_newid db.next_party_id, hdb, ?_, rfl, ?_⟩
  · unfold party_db_txt_sync
    simp only [hdb]
    rfl
  · have := init_loop_sync m db.next_party_id party_db_txt.next_party_id hn hnd hm
    refine ⟨m, ?_, rfl, fun _ => rfl⟩
    simp only [party_db_txt_init, db_clear]
    rw [this]

/-- Witness of C10 (as amended): the store after creating the party "Alpha"
in the empty store. -/
theorem sync_init_fidelity_witness :
    ReachableCrudValid store_alpha_created ∧
    ∃ parties db1 file, store_alpha_created.parties = some parties ∧
      party_db_txt_sync store_alpha_created true = some (true, db1, some file) ∧
      (party_db_txt_init party_db_txt (some file)).1 = true ∧
      ∃ parties2, (party_db_txt_init party_db_txt (some file)).2.parties = some parties2 ∧
        db_keys parties2 = db_keys parties ∧
        ∀ id, idb_get parties2 id = idb_get parties id :=
  have hr : ReachableCrudValid store_alpha_created :=
    ReachableCrudValid.create empty_store (blank_party (-1) (bytes "Alpha")) true
      store_alpha_created (blank_party 1 (bytes "Alpha")) ReachableCrudValid.empty
      (by decide) (by decide)
  ⟨hr, sync_init_fidelity store_alpha_created hr⟩

/-- C10 fails as stated: creating the party named " A" in the empty store,
writing the file and loading it into a new back end gives a store whose
record 1 is named "A". -/
theorem sync_init_loses_leading_space :
    ReachableCrud store_leading_space ∧
    party_db_txt_sync store_leading_space true
      = some (true, { store_leading_space with dirty := false }, some file_leading_space) ∧
    store_leading_space.parties = some [(1, { party := party_leading_space })] ∧
    (party_db_txt_init party_db_txt (some file_leading_space)).2.parties
      = some [(1, { party := { party_leading_space with name := bytes "A" } })] ∧
    idb_get [(1, { party := { party_leading_space with name := bytes "A" } })] 1
      ≠ idb_get [(1, { party := party_leading_space })] 1 := by
  refine ⟨?_, by decide, rfl, by decide, by decide⟩
  exact ReachableCrud.create empty_store { party := { party_leading_space with party_id := -1 } }
    true store_leading_space { party := party_leading_space } ReachableCrud.empty (by decide)

/-! ## Load without a file -/

/-- C12: for every state, when the data file cannot be opened
`party_db_txt_init` returns false, the store is empty afterwards and
`next_party_id` is the one before (as are the dirty flag and the setting). -/
theorem init_unopenable_file (db : PartyDB_TXT) :
    (party_db_txt_init db none).1 = false ∧
    (party_db_txt_init db none).2.parties = some [] ∧
    (∀ id, idb_get [] id = none) ∧
    (party_db_txt_init db none).2.next_party_id = db.next_party_id ∧
    (party_db_txt_init db none).2.dirty = db.dirty ∧
    (party_db_txt_init db none).2.case_sensitive = db.case_sensitive :=
  ⟨rfl, rfl, fun _ => rfl, rfl, rfl, rfl⟩

/-! ## The encoder -/

theorem tostr_members_slots (n : Nat) (ms : List party_member) :
    tostr_members n ms = ((slots n ms).map member_text).flatten := by
  induction n generalizing ms with
  | zero => rfl
  | succ n ih =>
    simp only [tostr_members, slots, List.map_cons, List.flatten_cons, member_text, ih,
      List.append_assoc, List.cons_append, List.nil_append]

theorem slots_length (n : Nat) (ms : List party_member) : (slots n ms).length = n := by
  induction n generalizing ms with
  | zero => rfl
  | succ n ih => simp [slots, ih]

theorem slots_of_length (n : Nat) (ms : List party_member) (h : ms.length = n) :
    slots n ms = ms := by
  induction n generalizing ms with
  | zero =>
    cases ms with
    | nil => rfl
    | cons m ms => simp at h
  | succ n ih =>
    cases ms with
    | nil => simp at h
    | cons m ms =>
      simp only [slots, List.headD_cons, List.tail_cons]
      rw [ih ms (by simpa using h)]

theorem slots_getD (n : Nat) (ms : List party_member) (k : Nat) (hk : k < n) :
    (slots n ms).getD k party_member.zero = ms.getD k party_member.zero := by
  induction n generalizing ms k with
  | zero => omega
  | succ n ih =>
    cases k with
    | zero => cases ms <;> rfl
    | succ k =>
      have := ih ms.tail k (by omega)
      cases ms with
      | nil =>
        simp only [slots, List.tail_nil, List.getD_cons_succ] at this ⊢
        rw [this]
        rfl
      | cons m ms =>
        simp only [slots, List.tail_cons, List.getD_cons_succ] at this ⊢
        exact this

theorem tostr_eq_line_text (p : party) :
    mmo_party_tostr p
      = line_text p.party_id p.name p.exp p.item (slots MAX_PARTY p.member) := by
  simp only [mmo_party_tostr, line_text, header_text, tostr_members_slots,
    List.append_assoc, List.cons_append, List.nil_append]

/-- C15: for every record the line written by `mmo_party_tostr` is the header
`id TAB name TAB exp,item TAB` followed by exactly `MAX_PARTY` groups
`account_id,char_id,leader TAB`, the `k`-th group being that of slot `k`;
when the record has its `MAX_PARTY` slots the groups are those of its member
array in order; an all-zero slot is written `0,0,0`. -/
theorem tostr_emits_all_slots (r : party) :
    mmo_party_tostr r
      = header_text r.party_id r.name r.exp r.item
          ++ ((slots MAX_PARTY r.member).map member_text).flatten ∧
    ((slots MAX_PARTY r.member).map member_text).length = MAX_PARTY ∧
    (∀ k, k < MAX_PARTY →
      (slots MAX_PARTY r.member).getD k party_member.zero
        = r.member.getD k party_member.zero) ∧
    (r.member.length = MAX_PARTY → slots MAX_PARTY r.member = r.member) ∧
    member_text party_member.zero = bytes "0,0,0\t" := by
  refine ⟨tostr_eq_line_text r, ?_, ?_, ?_, by decide⟩
  · rw [List.length_map, slots_length]
  · intro k hk
    exact slots_getD MAX_PARTY r.member k hk
  · intro h
    exact slots_of_length MAX_PARTY r.member h

/-! ## The decoder on a well-formed line -/

theorem normal_member_leader (l : Int) :
    is_int (if l ≠ 0 then (1 : Int) else 0) := by
  split <;> decide

theorem fromstr_members_text (n : Nat) (ms : List party_member) (hlen : ms.length = n)
    (hv : ∀ m ∈ ms, int_member m) (rest : List Nat) :
    fromstr_members n (some (TAB :: (tostr_members n ms ++ rest)))
      = some (ms.map normal_member) := by
  induction n generalizing ms with
  | zero =>
    cases ms with
    | nil => rfl
    | cons m ms => simp at hlen
  | succ n ih =>
    cases ms with
    | nil => simp at hlen
    | cons m ms =>
      obtain ⟨h1, h2, h3⟩ := hv m (List.mem_cons_self _ _)
      have hlen1 : ms.length = n := by simpa using hlen
      have hv1 : ∀ x ∈ ms, int_member x := fun x hx => hv x (List.mem_cons_of_mem _ hx)
      unfold fromstr_members
      simp only [List.tail_cons, tostr_members, List.headD_cons, List.append_assoc,
        List.cons_append]
      rw [scan_member_group _ _ _ h1 h2 h3, strchr_group]
      simp only [ih ms hlen1 hv1, Option.map_some', List.map_cons, normal_member]

theorem scan_header_text (id e i : Int) (name : List Nat) (hid : is_int id) (he : is_int e)
    (hi : is_int i) (hne : name ≠ []) (hs : plain_start name) (hnt : ∀ c ∈ name, c ≠ TAB)
    (hl : name.length ≤ 255) (rest : List Nat) :
    scan_header (print_int id ++ TAB :: (name ++ TAB :: (print_int e ++ COMMA ::
        (print_int i ++ TAB :: rest)))) = some (id, name, e, i) := by
  unfold scan_header
  rw [scan_int_print_int _ hid _ (stopsNumber_tab _)]
  simp only [Option.bind_eq_bind, Option.some_bind]
  cases hname : name with
  | nil => exact absurd hname hne
  | cons c t =>
    have hc : isspace c = false := by
      have := hs
      rw [plain_start, hname] at this
      simpa using this
    have hnt1 : ∀ x ∈ c :: t, x ≠ TAB := by
      intro x hx
      rw [← hname] at hx
      exact hnt x hx
    have hl1 : (c :: t).length ≤ 255 := by
      rw [← hname]; exact hl
    have h1 : skip_ws (TAB :: (c :: t ++ TAB :: (print_int e ++ COMMA ::
        (print_int i ++ TAB :: rest))))
        = c :: t ++ TAB :: (print_int e ++ COMMA :: (print_int i ++ TAB :: rest)) := by
      rw [skip_ws, if_pos (by decide), List.cons_append, skip_ws, if_neg (by simp [hc])]
    rw [h1]
    unfold scan_set_not_tab
    rw [scan_not_tab_name (c :: t) hnt1 255 hl1]
    simp only [Option.some_bind]
    rw [skip_ws, if_pos (by decide), skip_ws_print_int,
      scan_int_print_int _ he _ (stopsNumber_comma _)]
    simp only [Option.some_bind, scan_char, if_true]
    rw [scan_int_print_int _ hi _ (stopsNumber_tab _)]
    rfl

theorem skip_tabs_text (id e i : Int) (name : List Nat) (hnt : ∀ c ∈ name, c ≠ TAB)
    (rest : List Nat) :
    skip_tabs 3 (some (print_int id ++ TAB :: (name ++ TAB :: (print_int e ++ COMMA ::
        (print_int i ++ TAB :: rest))))) = some (TAB :: rest) := by
  cases hp : print_int id with
  | nil => exact absurd hp (print_int_ne_nil _)
  | cons c t =>
    have ht : ∀ x ∈ t, x ≠ TAB := fun x hx =>
      print_int_no_tab id x (by rw [hp]; exact List.mem_cons_of_mem _ hx)
    have h3 := strchr_skip (print_int e ++ COMMA :: print_int i)
      (by
        intro x hx
        simp only [List.mem_append, List.mem_cons] at hx
        rcases hx with h | h | h
        · exact print_int_no_tab _ x h
        · subst h; decide
        · exact print_int_no_tab _ x h) rest
    simp only [List.append_assoc, List.cons_append] at h3
    simp only [skip_tabs, List.cons_append, List.tail_cons, strchr_skip t ht,
      strchr_skip name hnt, h3]

theorem line_text_eq (id e i : Int) (name : List Nat) (ms : List party_member)
    (hlen : ms.length = MAX_PARTY) :
    line_text id name e i ms
      = print_int id ++ TAB :: (name ++ TAB :: (print_int e ++ COMMA ::
        (print_int i ++ TAB :: (tostr_members MAX_PARTY ms ++ [])))) := by
  rw [tostr_members_slots, slots_of_length MAX_PARTY ms hlen]
  simp only [line_text, header_text, List.append_assoc, List.cons_append, List.nil_append,
    List.append_nil]

/-- C14: for every line of the form `id TAB name TAB e,i TAB` followed by
`MAX_PARTY` groups `a,c,l TAB` (numbers that are C ints, name non-empty,
without tab, not beginning with white space, at most 23 bytes),
`mmo_party_fromstr` succeeds with that id, that name, `item = i`,
`exp = 1` if `e ≠ 0` else 0, and slot `k` holding the numbers of the `k`-th
group with `leader` reduced to 1 or 0. -/
theorem fromstr_line_text (id e i : Int) (name : List Nat) (ms : List party_member)
    (hid : is_int id) (he : is_int e) (hi : is_int i)
    (hne : name ≠ []) (hnt : ∀ c ∈ name, c ≠ TAB) (hs : plain_start name)
    (hl : name.length ≤ 23)
    (hlen : ms.length = MAX_PARTY) (hms : ∀ m ∈ ms, int_member m) :
    mmo_party_fromstr (line_text id name e i ms)
      = some { party_id := id, name := name, exp := if e ≠ 0 then 1 else 0, item := i,
               member := ms.map normal_member } ∧
    ∀ k, k < MAX_PARTY →
      (ms.map normal_member).getD k party_member.zero
        = { account_id := (ms.getD k party_member.zero).account_id,
            char_id := (ms.getD k party_member.zero).char_id,
            leader := if (ms.getD k party_member.zero).leader ≠ 0 then 1 else 0 } := by
  constructor
  · rw [line_text_eq id e i name ms hlen]
    unfold mmo_party_fromstr
    rw [scan_header_text id e i name hid he hi hne hs hnt (by omega)]
    simp only
    rw [skip_tabs_text id e i name hnt, fromstr_members_text MAX_PARTY ms hlen hms]
    simp only [Option.map_some', safestrncpy, NAME_LENGTH]
    rw [List.take_of_length_le (by omega)]
  · intro k hk
    have hk2 : k < ms.length := by omega
    rw [List.getD_eq_getElem _ _ (by simpa using hk2), List.getD_eq_getElem _ _ hk2]
    simp [normal_member]

/-- Witness of C14: the line `7 TAB Alpha TAB 5,2 TAB` followed by the group
`10,20,3` and eleven groups `0,0,0`. -/
theorem fromstr_line_text_witness :
    mmo_party_fromstr (line_text 7 (bytes "Alpha") 5 2
        (⟨10, 20, 3⟩ :: List.replicate 11 party_member.zero))
      = some { party_id := 7, name := bytes "Alpha", exp := 1, item := 2,
               member := ⟨10, 20, 1⟩ :: List.replicate 11 party_member.zero } :=
  (fromstr_line_text 7 5 2 (bytes "Alpha") (⟨10, 20, 3⟩ :: List.replicate 11 party_member.zero)
    (by decide) (by decide) (by decide) (by decide) (by decide) (by decide) (by decide)
    (by decide) (by decide)).1.trans (by decide)

/-! ## Record lines and the auto-increment line -/

theorem c_str_initial (s : List Nat) : ∃ t, s = c_str s ++ t := by
  induction s with
  | nil => exact ⟨[], rfl⟩
  | cons c s ih =>
    unfold c_str
    split
    · exact ⟨c :: s, rfl⟩
    · obtain ⟨t, ht⟩ := ih
      exact ⟨t, by rw [List.cons_append, ← ht]⟩

theorem tostr_bytes_no_break (p : party) (hname : ∀ c ∈ p.name, c ≠ CR ∧ c ≠ LF) (c : Nat)
    (h : c ∈ mmo_party_tostr p) : c ≠ LF ∧ c ≠ CR := by
  rcases mem_tostr p c h with h | h | h
  · have := group_byte_plain c h
    exact ⟨this.2.1, this.2.2.1⟩
  · subst h; decide
  · exact ⟨(hname c h).2, (hname c h).1⟩

theorem record_line_no_newid_shape (p : party) (hname : ∀ c ∈ p.name, c ≠ CR ∧ c ≠ LF)
    (pre rest : List Nat) (c : Nat)
    (hl : mmo_party_tostr p ++ [LF] = pre ++ PERCENT :: c :: rest) (hc : c = LF ∨ c = CR) :
    False := by
  obtain ⟨body, hb⟩ := tostr_ends p
  have hplain := tostr_bytes_no_break p hname
  rcases List.append_eq_append_iff.1 hl with ⟨a, ha, hb2⟩ | ⟨a, ha, hb2⟩
  · have := congrArg List.length hb2
    simp only [List.length_append, List.length_cons, List.length_nil] at this
    omega
  · cases a with
    | nil => simp at hb2
    | cons x a =>
      cases a with
      | nil =>
        simp only [List.cons_append, List.nil_append, List.cons.injEq] at hb2
        obtain ⟨hx, -, -⟩ := hb2
        rw [hb, ← hx] at ha
        have := congrArg List.getLast? ha
        simp [TAB, PERCENT] at this
      | cons y a =>
        simp only [List.cons_append, List.cons.injEq] at hb2
        obtain ⟨-, hy, -⟩ := hb2
        have hmem : c ∈ mmo_party_tostr p := by
          rw [ha, hy]; simp
        have := hplain c hmem
        rcases hc with hc | hc
        · exact this.1 hc
        · exact this.2 hc

theorem newid_line_record_line (p : party) (hname : ∀ c ∈ p.name, c ≠ CR ∧ c ≠ LF) :
    newid_line (c_str (mmo_party_tostr p ++ [LF])) = none := by
  cases h : newid_line (c_str (mmo_party_tostr p ++ [LF])) with
  | none => rfl
  | some id =>
    exfalso
    obtain ⟨pre, c, rest, hl, hc⟩ := newid_line_shape _ _ h
    obtain ⟨t, ht⟩ := c_str_initial (mmo_party_tostr p ++ [LF])
    rw [hl] at ht
    exact record_line_no_newid_shape p hname pre (rest ++ t) c (by rw [ht]; simp) hc

theorem init_line_of_newid (line : List Nat) (k : Int) (h : newid_line line = some k)
    (m : DBMap) (n : Int) : init_line line m n = (m, if k > n then k else n) := by
  unfold init_line
  simp only [h]

theorem init_line_of_record (line : List Nat) (h : newid_line line = none)
    (m : DBMap) (n : Int) :
    init_line line m n =
      match mmo_party_fromstr line with
      | none => (m, n)
      | some p => (idb_put m p.party_id { party := p },
          if p.party_id ≥ n then wrap32 (p.party_id + 1) else n) := by
  unfold init_line
  simp only [h]

/-- C17: for every record whose name contains no CR or LF, the test of
`party_db_txt_init` for the auto-increment line fails on the line
`mmo_party_tostr` writes for it followed by a line feed, so the line goes to
`mmo_party_fromstr`; and for every C int `k` the line
`k TAB %newid% LF` that `party_db_txt_sync` writes passes the test with id
`k` and leaves the map as it is. -/
theorem sentinel_never_confused (r : party) (hname : ∀ c ∈ r.name, c ≠ CR ∧ c ≠ LF)
    (k : Int) (hk : is_int k) :
    newid_line (c_str (mmo_party_tostr r ++ [LF])) = none ∧
    (∀ m n, init_line (c_str (mmo_party_tostr r ++ [LF])) m n =
      match mmo_party_fromstr (c_str (mmo_party_tostr r ++ [LF])) with
      | none => (m, n)
      | some p => (idb_put m p.party_id { party := p },
          if p.party_id ≥ n then wrap32 (p.party_id + 1) else n)) ∧
    sync_newid k = print_int k ++ TAB :: bytes "%newid%" ++ [LF] ∧
    newid_line (c_str (sync_newid k)) = some k ∧
    ∀ m n, (init_line (c_str (sync_newid k)) m n).1 = m := by
  have h1 := newid_line_record_line r hname
  have h2 : newid_line (c_str (sync_newid k)) = some k := by
    rw [sync_newid_c_str]; exact sync_newid_recognised k hk
  refine ⟨h1, fun m n => init_line_of_record _ h1 m n, ?_, h2, ?_⟩
  · have hb : bytes "%newid%" = [PERCENT, 110, 101, 119, 105, 100, PERCENT] := by decide
    rw [hb]
    simp [sync_newid]
  · intro m n
    rw [init_line_of_newid _ k h2]

/-- Witness of C17: the party named "%newid%" with id 3, and the
auto-increment line of the watermark 7. -/
theorem sentinel_never_confused_witness :
    newid_line (c_str (mmo_party_tostr newid_named_party ++ [LF])) = none ∧
    mmo_party_fromstr (c_str (mmo_party_tostr newid_named_party ++ [LF]))
      = some newid_named_party ∧
    newid_line (c_str (sync_newid 7)) = some 7 :=
  have h := sentinel_never_confused newid_named_party (by decide) 7 (by decide)
  ⟨h.1, by decide, h.2.2.2.1⟩

/-- C11 (as amended): when `party_db_txt_init` reads a line that passes the
test for the auto-increment line with id `k`, then `next_party_id` becomes
`k` if `k > next_party_id` and is unchanged otherwise, and no record is
stored for the line; this holds for the loop body, for a file made of that
line alone, and for the line at any position after lines that fit the
buffer. -/
theorem init_newid_line (db : PartyDB_TXT) (l1 : List (List Nat)) (s rest : List Nat)
    (k : Int) (h1 : ∀ l ∈ l1, is_line l) (hs : is_line s)
    (hk : newid_line (c_str s) = some k) :
    (∀ m n, init_line (c_str s) m n = (m, if k > n then k else n)) ∧
    party_db_txt_init db (some s)
      = (true, { db with
          parties := some [],
          next_party_id := if k > db.next_party_id then k else db.next_party_id,
          dirty := false }) ∧
    ∀ m n, init_loop (l1.flatten ++ (s ++ rest)).length (l1.flatten ++ (s ++ rest)) m n
      = init_loop rest.length rest (init_lines l1 m n).1
          (if k > (init_lines l1 m n).2 then k else (init_lines l1 m n).2) := by
  refine ⟨fun m n => init_line_of_newid _ k hk m n, ?_, ?_⟩
  · have := init_loop_line s hs [] [] db.next_party_id
    simp only [List.append_nil] at this
    simp only [party_db_txt_init, db_clear, this, init_line_of_newid _ k hk, List.length_nil,
      init_loop]
  · intro m n
    rw [init_loop_lines l1 h1, init_loop_line s hs, init_line_of_newid _ k hk]

/-- Witness of C11 (as amended): the file made of the line `5 TAB %newid%`
loaded into a new back end sets `next_party_id` to 5. -/
theorem init_newid_line_witness :
    party_db_txt_init party_db_txt (some (sync_newid 5))
      = (true, { party_db_txt with parties := some [], next_party_id := 5, dirty := false }) :=
  (init_newid_line party_db_txt [] (sync_newid 5) [] 5 (by simp)
    (sync_newid_is_line 5 (by decide)) (by decide)).2.1.trans (by decide)

/-- C11 fails as stated: the line `5 TAB %newid%` passes the test with id 5,
which is not below the watermark 1 of a new back end, and loading it leaves
`next_party_id = 5`, not 6. -/
theorem newid_line_sets_watermark_to_id :
    newid_line (c_str (bytes "5\t%newid%\n")) = some 5 ∧
    (5 : Int) ≥ party_db_txt.next_party_id ∧
    (party_db_txt_init party_db_txt (some (bytes "5\t%newid%\n"))).2.next_party_id = 5 ∧
    (party_db_txt_init party_db_txt (some (bytes "5\t%newid%\n"))).2.next_party_id
      ≠ 5 + 1 := by
  decide

/-! ## Lines the decoder rejects -/

theorem skip_tabs_none (j : Nat) : skip_tabs j none = none := by
  cases j <;> rfl

theorem skip_tabs_add (a b : Nat) (str : Option (List Nat)) :
    skip_tabs (a + b) str = skip_tabs b (skip_tabs a str) := by
  induction a generalizing str with
  | zero => simp [skip_tabs]
  | succ a ih =>
    cases str with
    | none => rw [skip_tabs_none, skip_tabs_none, skip_tabs_none]
    | some s =>
      rw [Nat.succ_add]
      simp only [skip_tabs]
      exact ih _

theorem fromstr_members_groups (n : Nat) (str : Option (List Nat)) (ms : List party_member)
    (h : fromstr_members n str = some ms) :
    ∀ i, i < n → ∃ s g, skip_tabs i str = some s ∧ scan_member s.tail = some g := by
  induction n generalizing str ms with
  | zero => intro i hi; omega
  | succ n ih =>
    cases str with
    | none => simp [fromstr_members] at h
    | some s =>
      unfold fromstr_members at h
      cases hg : scan_member s.tail with
      | none => simp [hg] at h
      | some g =>
        simp only [hg, Option.map_eq_some'] at h
        obtain ⟨ms1, h1, -⟩ := h
        intro i hi
        cases i with
        | zero => exact ⟨s, g, rfl, hg⟩
        | succ i =>
          obtain ⟨s2, g2, hs2, hg2⟩ := ih _ ms1 h1 i (by omega)
          exact ⟨s2, g2, by simpa [skip_tabs] using hs2, hg2⟩

theorem strchr_count (s t : List Nat) (h : strchr s TAB = some t) :
    t.tail.count TAB + 1 = s.count TAB := by
  induction s with
  | nil => simp [strchr] at h
  | cons a s ih =>
    rw [strchr] at h
    split at h
    · rename_i ha
      simp only [Option.some.injEq] at h
      subst h
      subst ha
      simp
    · rename_i ha
      rw [List.count_cons_of_ne (fun e => ha e.symm)]
      exact ih h

theorem skip_tabs_count (j : Nat) (s t : List Nat) (h : skip_tabs j (some s) = some t) :
    j ≤ s.tail.count TAB := by
  induction j generalizing s with
  | zero => omega
  | succ j ih =>
    simp only [skip_tabs] at h
    cases hc : strchr s.tail TAB with
    | none => rw [hc, skip_tabs_none] at h; cases h
    | some u =>
      rw [hc] at h
      have := ih u h
      have := strchr_count _ _ hc
      omega

theorem fromstr_groups (line : List Nat) (p : party) (h : mmo_party_fromstr line = some p) :
    ∀ i, i < MAX_PARTY →
      ∃ s g, skip_tabs (3 + i) (some line) = some s ∧ scan_member s.tail = some g := by
  unfold mmo_party_fromstr at h
  split at h
  · cases h
  · simp only [Option.map_eq_some'] at h
    obtain ⟨ms, hms, -⟩ := h
    intro i hi
    rw [skip_tabs_add]
    exact fromstr_members_groups _ _ _ hms i hi

theorem tostr_members_add (k j : Nat) (ms : List party_member) :
    tostr_members (k + j) ms = tostr_members k ms ++ tostr_members j (ms.drop k) := by
  induction k generalizing ms with
  | zero => simp [tostr_members]
  | succ k ih =>
    rw [Nat.succ_add]
    simp only [tostr_members, ih, List.append_assoc, List.cons_append, List.drop_succ_cons]
    cases ms <;> simp

theorem tostr_members_succ_ne_nil (j : Nat) (ms : List party_member) :
    tostr_members (j + 1) ms ≠ [] := by
  have := print_int_ne_nil (ms.headD party_member.zero).account_id
  simp [tostr_members, this]

theorem fromstr_members_short (k n : Nat) (hk : k < n) (ms : List party_member) :
    fromstr_members n (some (TAB :: tostr_members k ms)) = none := by
  induction k generalizing n ms with
  | zero =>
    cases n with
    | zero => omega
    | succ n => simp [fromstr_members, tostr_members, scan_member, scan_int, skip_ws]
  | succ k ih =>
    cases n with
    | zero => omega
    | succ n =>
      unfold fromstr_members
      simp only [List.tail_cons, tostr_members, List.append_assoc, List.cons_append]
      rw [strchr_group, ih n (by omega)]
      split <;> rfl

theorem fromstr_cut_none (p : party) (hnt : ∀ c ∈ p.name, c ≠ TAB) (k : Nat)
    (hk : k < MAX_PARTY) : mmo_party_fromstr (tostr_cut p k) = none := by
  have he : tostr_cut p k = print_int p.party_id ++ TAB :: (p.name ++ TAB ::
      (print_int p.exp ++ COMMA :: (print_int p.item ++ TAB :: tostr_members k p.member))) := by
    simp only [tostr_cut, header_text, List.append_assoc, List.cons_append,
      List.nil_append]
  unfold mmo_party_fromstr
  rw [he, skip_tabs_text _ _ _ _ hnt, fromstr_members_short k MAX_PARTY hk]
  split <;> rfl

theorem tostr_cut_proper (p : party) (k : Nat) (hk : k < MAX_PARTY) :
    ∃ rest, rest ≠ [] ∧ mmo_party_tostr p = tostr_cut p k ++ rest := by
  obtain ⟨j, hj⟩ : ∃ j, MAX_PARTY = k + (j + 1) := ⟨MAX_PARTY - k - 1, by omega⟩
  refine ⟨tostr_members (j + 1) (p.member.drop k), tostr_members_succ_ne_nil _ _, ?_⟩
  have : mmo_party_tostr p
      = header_text p.party_id p.name p.exp p.item ++ tostr_members MAX_PARTY p.member := by
    simp only [mmo_party_tostr, header_text, List.append_assoc, List.cons_append,
      List.nil_append]
  rw [this, hj, tostr_members_add, tostr_cut, List.append_assoc]

/-- C13 (as amended): `mmo_party_fromstr` returns false on every line on
which the `sscanf` of the header does not convert the four leading fields,
which has fewer than `MAX_PARTY + 2` tabs after its first byte (so that the
tab that introduces one of the `MAX_PARTY` groups is missing), or on which
the `sscanf` of a group, applied to the text after the tab that introduces
it, does not convert three integers; and every part of the line of a record
with a tab-free name that ends after `k < MAX_PARTY` member groups, a proper
prefix of the line, is rejected. -/
theorem fromstr_rejects_incomplete :
    (∀ line : List Nat,
      (scan_header line = none → mmo_party_fromstr line = none) ∧
      (line.tail.count TAB < MAX_PARTY + 2 → mmo_party_fromstr line = none) ∧
      (∀ i, i < MAX_PARTY → skip_tabs (3 + i) (some line) = none →
        mmo_party_fromstr line = none) ∧
      (∀ i, i < MAX_PARTY → ∀ s, skip_tabs (3 + i) (some line) = some s →
        scan_member s.tail = none → mmo_party_fromstr line = none)) ∧
    (∀ (p : party) (k : Nat), (∀ c ∈ p.name, c ≠ TAB) → k < MAX_PARTY →
      (∃ rest, rest ≠ [] ∧ mmo_party_tostr p = tostr_cut p k ++ rest) ∧
      mmo_party_fromstr (tostr_cut p k) = none) := by
  refine ⟨fun line => ⟨?_, ?_, ?_, ?_⟩, fun p k hnt hk =>
    ⟨tostr_cut_proper p k hk, fromstr_cut_none p hnt k hk⟩⟩
  · intro h
    unfold mmo_party_fromstr
    rw [h]
  · intro hc
    cases hf : mmo_party_fromstr line with
    | none => rfl
    | some p =>
      exfalso
      obtain ⟨s, g, hs, -⟩ := fromstr_groups line p hf (MAX_PARTY - 1) (by decide)
      have := skip_tabs_count _ _ _ hs
      have e : MAX_PARTY = 12 := rfl
      omega
  · intro i hi hnone
    cases hf : mmo_party_fromstr line with
    | none => rfl
    | some p =>
      exfalso
      obtain ⟨s, g, hs, -⟩ := fromstr_groups line p hf i hi
      rw [hnone] at hs
      cases hs
  · intro i hi s hs hnone
    cases hf : mmo_party_fromstr line with
    | none => rfl
    | some p =>
      exfalso
      obtain ⟨s2, g, hs2, hg⟩ := fromstr_groups line p hf i hi
      rw [hs] at hs2
      cases hs2
      rw [hnone] at hg
      cases hg

/-- Witness of C13 (as amended): the line of the party "Alpha" cut after its
eleventh member group is rejected, and so is a line with two tabs. -/
theorem fromstr_rejects_incomplete_witness :
    mmo_party_fromstr (tostr_cut (blank_party 1 (bytes "Alpha")).party 11) = none ∧
    mmo_party_fromstr (bytes "1\tAlpha\t0,0") = none :=
  ⟨(fromstr_rejects_incomplete.2 (blank_party 1 (bytes "Alpha")).party 11 (by decide)
      (by decide)).2,
   (fromstr_rejects_incomplete.1 (bytes "1\tAlpha\t0,0")).2.1 (by decide)⟩

/-- C13 fails as stated: in the line `1 TAB TAB 0,0 TAB` followed by
`MAX_PARTY` groups `0,0,0 TAB` the name field is missing, and
`mmo_party_fromstr` returns true for it, with the name "0,0". -/
theorem fromstr_accepts_missing_name :
    line_text 1 [] 0 0 (List.replicate MAX_PARTY party_member.zero)
      = bytes "1\t\t0,0\t0,0,0\t0,0,0\t0,0,0\t0,0,0\t0,0,0\t0,0,0\t0,0,0\t0,0,0\t0,0,0\t0,0,0\t0,0,0\t0,0,0\t" ∧
    mmo_party_fromstr (line_text 1 [] 0 0 (List.replicate MAX_PARTY party_member.zero))
      = some { party_id := 1, name := bytes "0,0", exp := 0, item := 0,
               member := List.replicate MAX_PARTY party_member.zero } := by
  decide

/-! ## The watermark across operations -/

theorem init_line_mono (line : List Nat) (m : DBMap) (n : Int)
    (hmax : INT_MAX ∉ db_keys (init_line line m n).1) : n ≤ (init_line line m n).2 := by
  unfold init_line at hmax ⊢
  split
  · simp only
    split <;> omega
  · rename_i hid
    rw [hid] at hmax
    simp only at hmax
    split
    · exact Int.le_refl _
    · rename_i p hfs
      rw [hfs] at hmax
      simp only at hmax
      have hp := fromstr_is_int _ _ hfs
      have hne : p.party_id ≠ INT_MAX := by
        intro he
        apply hmax
        rw [← he]
        exact mem_keys_idb_put_self _ _ _
      have hw : wrap32 (p.party_id + 1) = p.party_id + 1 := by
        apply wrap32_of_is_int
        unfold is_int INT_MIN INT_MAX at *
        omega
      simp only [hw]
      split <;> omega

theorem init_loop_mono (f : Nat) (fp : List Nat) (m : DBMap) (n : Int)
    (hmax : INT_MAX ∉ db_keys (init_loop f fp m n).1) : n ≤ (init_loop f fp m n).2 := by
  induction f generalizing fp m n with
  | zero => exact Int.le_refl _
  | succ f ih =>
    unfold init_loop at hmax ⊢
    split
    · exact Int.le_refl _
    · rename_i buf fp1 hg
      rw [hg] at hmax
      simp only at hmax
      have h1 := ih _ _ _ hmax
      have h2 := init_line_mono (c_str buf) m n
        (fun hk => hmax (init_loop_keys_mono _ _ _ _ _ hk))
      omega

theorem init_mono (db : PartyDB_TXT) (file : Option (List Nat)) (parties1 : DBMap)
    (hp : (party_db_txt_init db file).2.parties = some parties1)
    (hmax : INT_MAX ∉ db_keys parties1) :
    db.next_party_id ≤ (party_db_txt_init db file).2.next_party_id := by
  cases file with
  | none => exact Int.le_refl _
  | some fp =>
    simp only [party_db_txt_init, db_clear, Option.some.injEq] at hp ⊢
    subst hp
    exact init_loop_mono _ _ _ _ hmax

theorem create_mono (db : PartyDB_TXT) (p : party_data) (r : Bool) (db1 : PartyDB_TXT)
    (p1 : party_data) (hn : is_int db.next_party_id) (hp : is_int p.party.party_id)
    (hc : party_db_txt_create db p = some (r, db1, p1))
    (hne : r = true → create_party_id db p ≠ INT_MAX) :
    db.next_party_id ≤ db1.next_party_id := by
  unfold party_db_txt_create at hc
  cases hdb : db.parties with
  | none => simp [hdb] at hc
  | some m =>
    simp only [hdb] at hc
    cases hg : idb_get m (create_party_id db p) with
    | some v =>
      simp only [hg, Option.some.injEq, Prod.mk.injEq] at hc
      obtain ⟨-, hdb1, -⟩ := hc
      subst hdb1
      exact Int.le_refl _
    | none =>
      simp only [hg, Option.some.injEq, Prod.mk.injEq] at hc
      obtain ⟨hr, hdb1, -⟩ := hc
      subst hdb1
      have hid : is_int (create_party_id db p) := by
        unfold create_party_id; split <;> assumption
      have hne1 := hne hr.symm
      have hw : wrap32 (create_party_id db p + 1) = create_party_id db p + 1 := by
        apply wrap32_of_is_int
        unfold is_int INT_MIN INT_MAX at *
        omega
      simp only [hw]
      split <;> omega

theorem save_next (db : PartyDB_TXT) (p : party_data) (r : Bool) (db1 : PartyDB_TXT)
    (hc : party_db_txt_save db p = some (r, db1)) :
    db1.next_party_id = db.next_party_id := by
  unfold party_db_txt_save at hc
  cases hdb : db.parties with
  | none => simp [hdb] at hc
  | some m =>
    simp only [hdb] at hc
    cases hg : idb_get m p.party.party_id with
    | none =>
      simp only [hg, Option.some.injEq, Prod.mk.injEq] at hc
      rw [← hc.2]
    | some v =>
      simp only [hg, Option.some.injEq, Prod.mk.injEq] at hc
      rw [← hc.2]

theorem remove_next (db : PartyDB_TXT) (party_id : Int) (r : Bool) (db1 : PartyDB_TXT)
    (hc : party_db_txt_remove db party_id = some (r, db1)) :
    db1.next_party_id = db.next_party_id := by
  unfold party_db_txt_remove at hc
  cases hdb : db.parties with
  | none => simp [hdb] at hc
  | some m =>
    simp only [hdb, Option.some.injEq, Prod.mk.injEq] at hc
    rw [← hc.2]

theorem sync_next (db : PartyDB_TXT) (lock_ok r : Bool) (db1 : PartyDB_TXT)
    (out : Option (List Nat)) (hc : party_db_txt_sync db lock_ok = some (r, db1, out)) :
    db1.next_party_id = db.next_party_id := by
  unfold party_db_txt_sync at hc
  split at hc
  · simp only [Option.some.injEq, Prod.mk.injEq] at hc
    rw [← hc.2.1]
  · cases hdb : db.parties with
    | none => simp [hdb] at hc
    | some m =>
      simp only [hdb, Option.some.injEq, Prod.mk.injEq] at hc
      rw [← hc.2.1]

theorem step_mono (db db1 : PartyDB_TXT) (hs : Step db db1) (hb : below_int_max db1)
    (hn : is_int db.next_party_id) : db.next_party_id ≤ db1.next_party_id := by
  cases hs with
  | init file =>
    cases file with
    | none => exact Int.le_refl _
    | some fp => exact init_mono db (some fp) _ rfl (hb _ rfl)
  | create p r _ p1 hp hc =>
    apply create_mono db p r db1 p1 hn hp hc
    intro hr hid
    subst hr
    unfold party_db_txt_create at hc
    cases hdb : db.parties with
    | none => simp [hdb] at hc
    | some m =>
      simp only [hdb] at hc
      cases hg : idb_get m (create_party_id db p) with
      | some v => simp [hg] at hc
      | none =>
        simp only [hg, Option.some.injEq, Prod.mk.injEq, true_and] at hc
        obtain ⟨hdb1, -⟩ := hc
        subst hdb1
        apply hb _ rfl
        rw [← hid]
        exact mem_keys_idb_put_self _ _ _
  | save p r _ hc => rw [save_next db p r db1 hc]
  | remove party_id r _ hc => rw [remove_next db party_id r db1 hc]
  | sync lock_ok r _ out hc => rw [sync_next db lock_ok r db1 out hc]

theorem reachable_below_max_pos (db : PartyDB_TXT) (h : ReachableBelowMax db) :
    1 ≤ db.next_party_id := by
  induction h with
  | fresh => decide
  | step db db1 hr hs hb ih =>
    have := step_mono db db1 hs hb (reachable_below_max_inv db hr).1
    omega

/-- C20 (as amended): for every state whose `next_party_id` is a C int,
`next_party_id` after an operation is not below the one before: for init on
any file or without a file, provided the load stores no record with id
`INT_MAX`; for create of a record with a C int id, provided it does not
store a record with id `INT_MAX`; save, remove and sync keep
`next_party_id`.  (Load and name2id return no state.) -/
theorem watermark_never_decreases (db : PartyDB_TXT) (hn : is_int db.next_party_id) :
    (∀ file parties1, (party_db_txt_init db file).2.parties = some parties1 →
      INT_MAX ∉ db_keys parties1 →
      db.next_party_id ≤ (party_db_txt_init db file).2.next_party_id) ∧
    (party_db_txt_init db none).2.next_party_id = db.next_party_id ∧
    (∀ p r db1 p1, is_int p.party.party_id →
      party_db_txt_create db p = some (r, db1, p1) →
      (r = true → create_party_id db p ≠ INT_MAX) →
      db.next_party_id ≤ db1.next_party_id) ∧
    (∀ p r db1, party_db_txt_save db p = some (r, db1) →
      db1.next_party_id = db.next_party_id) ∧
    (∀ party_id r db1, party_db_txt_remove db party_id = some (r, db1) →
      db1.next_party_id = db.next_party_id) ∧
    (∀ lock_ok r db1 out, party_db_txt_sync db lock_ok = some (r, db1, out) →
      db1.next_party_id = db.next_party_id) :=
  ⟨fun file parties1 hp hmax => init_mono db file parties1 hp hmax, rfl,
   fun p r db1 p1 hp hc hne => create_mono db p r db1 p1 hn hp hc hne,
   fun p r db1 hc => save_next db p r db1 hc,
   fun party_id r db1 hc => remove_next db party_id r db1 hc,
   fun lock_ok r db1 out hc => sync_next db lock_ok r db1 out hc⟩

/-- Witness of C20 (as amended): in the store that holds "Alpha" with
watermark 2, loading the auto-increment line of the smaller id 1 keeps the
watermark, and creating a party with id 5 raises it. -/
theorem watermark_never_decreases_witness :
    is_int store_alpha.next_party_id ∧
    store_alpha.next_party_id
      ≤ (party_db_txt_init store_alpha (some (sync_newid 1))).2.next_party_id ∧
    (party_db_txt_init store_alpha (some (sync_newid 1))).2.next_party_id = 2 ∧
    party_db_txt_create store_alpha (blank_party 5 (bytes "B"))
      = some (true,
          { parties := some [(1, blank_party 1 (bytes "Alpha")), (5, blank_party 5 (bytes "B"))],
            next_party_id := 6, dirty := true, case_sensitive := false,
            owner_sync_requests := 1 },
          blank_party 5 (bytes "B")) ∧
    store_alpha.next_party_id ≤ 6 :=
  have h := watermark_never_decreases store_alpha (by decide)
  ⟨by decide, h.1 (some (sync_newid 1)) [] (by decide) (by decide), by decide, by decide,
   h.2.2.1 (blank_party 5 (bytes "B")) true
     { parties := some [(1, blank_party 1 (bytes "Alpha")), (5, blank_party 5 (bytes "B"))],
       next_party_id := 6, dirty := true, case_sensitive := false,
       owner_sync_requests := 1 }
     (blank_party 5 (bytes "B")) (by decide) (by decide) (by decide)⟩

/-- C20 fails as stated: loading a file whose record line carries the id
`INT_MAX` into a new back end takes `next_party_id` from 1 to `INT_MIN`. -/
theorem watermark_drops_on_load :
    party_db_txt.next_party_id = 1 ∧
    (party_db_txt_init party_db_txt (some file_int_max)).1 = true ∧
    (party_db_txt_init party_db_txt (some file_int_max)).2.next_party_id = -2147483648 ∧
    ¬ party_db_txt.next_party_id
        ≤ (party_db_txt_init party_db_txt (some file_int_max)).2.next_party_id := by
  decide

/-! ## Allocation of a fresh id -/

/-- C18 (as amended): in every state reached from a newly constructed back
end by init, create, save, remove and sync without a record with id
`INT_MAX` being stored along the way, and in which init has allocated the
map, `party_db_txt_create` with the id -1 returns true; the id it assigns is
`next_party_id`, was not a key of the store before the call and is at least
1. -/
theorem create_fresh_id (db : PartyDB_TXT) (h : ReachableBelowMax db) (parties : DBMap)
    (hdb : db.parties = some parties) (p : party_data) (hp : p.party.party_id = -1) :
    ∃ db1 p1, party_db_txt_create db p = some (true, db1, p1) ∧
      p1.party.party_id = db.next_party_id ∧
      p1.party.party_id ∉ db_keys parties ∧
      1 ≤ p1.party.party_id ∧
      db1.parties = some (idb_put parties p1.party.party_id p1) := by
  obtain ⟨-, hinv⟩ := reachable_below_max_inv db h
  obtain ⟨-, hm⟩ := hinv parties hdb
  have hpos := reachable_below_max_pos db h
  have hid : create_party_id db p = db.next_party_id := by
    simp [create_party_id, hp]
  have hfree : db.next_party_id ∉ db_keys parties := by
    intro hk
    simp only [db_keys, List.mem_map] at hk
    obtain ⟨e, he, hek⟩ := hk
    have := (hm e he).2.2
    omega
  have hnone := (idb_get_none_iff_not_mem_keys parties _).2 hfree
  refine ⟨{ db with
      parties := some (idb_put parties db.next_party_id
        { party := { p.party with party_id := db.next_party_id } }),
      next_party_id :=
        if db.next_party_id ≥ db.next_party_id then wrap32 (db.next_party_id + 1)
        else db.next_party_id,
      dirty := true,
      owner_sync_requests := db.owner_sync_requests + 1 },
    { party := { p.party with party_id := db.next_party_id } }, ?_, rfl, hfree, hpos, rfl⟩
  unfold party_db_txt_create
  simp only [hdb, hid, hnone]

/-- Witness of C18 (as amended): a create without id in the empty store. -/
theorem create_fresh_id_witness :
    ReachableBelowMax empty_store ∧
    ∃ db1 p1, party_db_txt_create empty_store (blank_party (-1) (bytes "A"))
        = some (true, db1, p1) ∧
      p1.party.party_id = empty_store.next_party_id ∧
      p1.party.party_id ∉ db_keys [] ∧
      1 ≤ p1.party.party_id ∧
      db1.parties = some (idb_put [] p1.party.party_id p1) :=
  have hr : ReachableBelowMax empty_store :=
    ReachableBelowMax.step party_db_txt empty_store ReachableBelowMax.fresh
      (Step.init party_db_txt (some [])) (by intro parties hp; cases hp; decide)
  ⟨hr, create_fresh_id empty_store hr [] rfl (blank_party (-1) (bytes "A")) rfl⟩

/-- C18 fails as stated: a newly constructed back end is reachable and
`party_db_txt_create` has no result on it, its map being NULL; and in the
reachable state that holds the party `INT_MAX`, a create with the id -1
returns true and assigns the id `INT_MIN`, which is below 1. -/
theorem create_unassigned_fails :
    Reachable party_db_txt ∧
    party_db_txt_create party_db_txt (blank_party (-1) (bytes "A")) = none ∧
    Reachable store_at_int_max ∧
    party_db_txt_create store_at_int_max (blank_party (-1) (bytes "B"))
      = some (true, store_after_wrap, blank_party (-2147483648) (bytes "B")) ∧
    ¬ (1 : Int) ≤ (blank_party (-2147483648) (bytes "B")).party.party_id := by
  refine ⟨Reachable.fresh, rfl, ?_, by decide, by decide⟩
  exact Reachable.step empty_store _
    (Reachable.step party_db_txt empty_store Reachable.fresh
      (Step.init party_db_txt (some [])))
    (Step.create empty_store (blank_party 2147483647 (bytes "A")) true _
      (blank_party 2147483647 (bytes "A")) (by decide) (by decide))

/-! ## The watermark across a restart -/

theorem tostr_members_length_int (n : Nat) (ms : List party_member)
    (hv : ∀ m ∈ ms, int_member m) : (tostr_members n ms).length ≤ 36 * n := by
  induction n generalizing ms with
  | zero => simp [tostr_members]
  | succ n ih =>
    have hh : int_member (ms.headD party_member.zero) := by
      cases ms with
      | nil => decide
      | cons m ms => exact hv m (List.mem_cons_self _ _)
    have ht : ∀ m ∈ ms.tail, int_member m := fun x hx => hv x (List.mem_of_mem_tail hx)
    obtain ⟨h1, h2, h3⟩ := hh
    have := ih ms.tail ht
    have a := print_int_length _ h1
    have b := print_int_length _ h2
    have c := print_int_length _ h3
    simp only [tostr_members, List.length_append, List.length_cons]
    omega

theorem tostr_length_typed (p : party) (hv : c_typed p) :
    (mmo_party_tostr p).length ≤ 492 := by
  obtain ⟨hid, hlen, hexp, hitem, hmv⟩ := hv
  have a := print_int_length _ hid
  have b := print_int_length _ hexp
  have c := print_int_length _ hitem
  have d := tostr_members_length_int MAX_PARTY p.member hmv
  have e : MAX_PARTY = 12 := rfl
  have f : NAME_LENGTH = 24 := rfl
  simp only [mmo_party_tostr, List.length_append, List.length_cons]
  omega

theorem typed_line_is_line (p : party) (hv : c_typed p)
    (hname : ∀ c ∈ p.name, c ≠ CR ∧ c ≠ LF) : is_line (mmo_party_tostr p ++ [LF]) := by
  refine ⟨mmo_party_tostr p, rfl, fun h => (tostr_bytes_no_break p hname LF h).1 rfl, ?_⟩
  have := tostr_length_typed p hv
  simp only [List.length_append, List.length_singleton, LINE_SIZE]
  omega

theorem c_str_append_of_no_nul (a b : List Nat) (h : ∀ c ∈ a, c ≠ 0) :
    c_str (a ++ b) = a ++ c_str b := by
  induction a with
  | nil => rfl
  | cons c a ih =>
    rw [List.cons_append, c_str, if_neg (h c (List.mem_cons_self _ _)),
      ih (fun x hx => h x (List.mem_cons_of_mem _ hx))]
    rfl

theorem print_int_no_nul (v : Int) : ∀ c ∈ print_int v, c ≠ 0 := by
  intro c hc h0
  have := print_int_bytes v c hc
  subst h0
  revert this
  decide

theorem scan_header_id (id : Int) (hid : is_int id) (rest : List Nat) (a : Int)
    (b : List Nat) (c d : Int)
    (h : scan_header (print_int id ++ TAB :: rest) = some (a, b, c, d)) : a = id := by
  unfold scan_header at h
  rw [scan_int_print_int id hid _ (stopsNumber_tab _)] at h
  simp only [Option.bind_eq_bind, Option.some_bind, Option.bind_eq_some, Option.some.injEq,
    Prod.mk.injEq] at h
  obtain ⟨_, _, _, _, _, _, _, _, ha, _⟩ := h
  exact ha.symm

theorem fromstr_line_id (p : party) (hid : is_int p.party_id) (tail : List Nat) (q : party)
    (h : mmo_party_fromstr (c_str (mmo_party_tostr p ++ tail)) = some q) :
    q.party_id = p.party_id := by
  have he : c_str (mmo_party_tostr p ++ tail)
      = print_int p.party_id ++ TAB :: c_str (p.name ++ TAB :: (print_int p.exp ++ COMMA ::
        (print_int p.item ++ TAB :: (tostr_members MAX_PARTY p.member ++ tail)))) := by
    simp only [mmo_party_tostr, List.append_assoc, List.cons_append]
    rw [c_str_append_of_no_nul _ _ (print_int_no_nul _), c_str, if_neg (by decide)]
  rw [he] at h
  unfold mmo_party_fromstr at h
  split at h
  · cases h
  · rename_i a b c d hh
    simp only [Option.map_eq_some'] at h
    obtain ⟨ms, -, hq⟩ := h
    rw [← hq]
    exact scan_header_id _ hid _ a b c d hh

theorem record_line_next (p : party) (hv : c_typed p)
    (hname : ∀ c ∈ p.name, c ≠ CR ∧ c ≠ LF) (m : DBMap) (n N : Int)
    (hn : n ≤ N) (hN : is_int N) (hid : p.party_id < N) :
    n ≤ (init_line (c_str (mmo_party_tostr p ++ [LF])) m n).2 ∧
    (init_line (c_str (mmo_party_tostr p ++ [LF])) m n).2 ≤ N := by
  rw [init_line_of_record _ (newid_line_record_line p hname)]
  cases hf : mmo_party_fromstr (c_str (mmo_party_tostr p ++ [LF])) with
  | none => exact ⟨Int.le_refl _, hn⟩
  | some q =>
    have hq := fromstr_line_id p hv.1 [LF] q hf
    have hw : wrap32 (p.party_id + 1) = p.party_id + 1 := by
      apply wrap32_of_is_int
      have := hv.1
      unfold is_int INT_MIN INT_MAX at *
      omega
    simp only [hq, hw]
    split <;> constructor <;> omega

theorem record_lines_next (ps : List party_data) (N : Int) (hN : is_int N)
    (hps : ∀ r ∈ ps, c_typed r.party ∧ (∀ c ∈ r.party.name, c ≠ CR ∧ c ≠ LF) ∧
      r.party.party_id < N) (m : DBMap) (n : Int) (hn : n ≤ N) :
    n ≤ (init_lines (ps.map fun p => mmo_party_tostr p.party ++ [LF]) m n).2 ∧
    (init_lines (ps.map fun p => mmo_party_tostr p.party ++ [LF]) m n).2 ≤ N := by
  induction ps generalizing m n with
  | nil => exact ⟨Int.le_refl _, hn⟩
  | cons r ps ih =>
    obtain ⟨h1, h2, h3⟩ := hps r (List.mem_cons_self _ _)
    have hl := record_line_next r.party h1 h2 m n N hn hN h3
    have := ih (fun x hx => hps x (List.mem_cons_of_mem _ hx))
      (init_line (c_str (mmo_party_tostr r.party ++ [LF])) m n).1
      (init_line (c_str (mmo_party_tostr r.party ++ [LF])) m n).2 hl.2
    simp only [List.map_cons, init_lines]
    exact ⟨by omega, this.2⟩

/-- C19 (as amended): for every state reached from a newly constructed back
end by init, create, save, remove and sync without a record with id
`INT_MAX` being stored along the way, in which the stored records fit the C
structure and no stored name contains a line break, `party_db_txt_sync`
writes a file from which `party_db_txt_init` on a newly constructed back end
(watermark 1) obtains the `next_party_id` of the time of the sync. -/
theorem watermark_survives_restart (db : PartyDB_TXT) (h : ReachableBelowMax db)
    (parties : DBMap) (hdb : db.parties = some parties)
    (ht : ∀ r ∈ db_iterate parties, c_typed r.party ∧
      ∀ c ∈ r.party.name, c ≠ CR ∧ c ≠ LF) :
    ∃ db1 file, party_db_txt_sync db true = some (true, db1, some file) ∧
      (party_db_txt_init party_db_txt (some file)).1 = true ∧
      (party_db_txt_init party_db_txt (some file)).2.next_party_id = db.next_party_id := by
  obtain ⟨hn, hinv⟩ := reachable_below_max_inv db h
  obtain ⟨-, hm⟩ := hinv parties hdb
  have hpos := reachable_below_max_pos db h
  refine ⟨{ db with dirty := false },
    sync_records (db_iterate parties) ++ sync_newid db.next_party_id, ?_, rfl, ?_⟩
  · unfold party_db_txt_sync
    simp only [hdb]
    rfl
  · have hps : ∀ r ∈ db_iterate parties, c_typed r.party ∧
        (∀ c ∈ r.party.name, c ≠ CR ∧ c ≠ LF) ∧ r.party.party_id < db.next_party_id := by
      intro r hr
      refine ⟨(ht r hr).1, (ht r hr).2, ?_⟩
      simp only [db_iterate, List.mem_map] at hr
      obtain ⟨e, he, rfl⟩ := hr
      have := hm e he
      omega
    have hlines : ∀ l ∈ (db_iterate parties).map (fun p => mmo_party_tostr p.party ++ [LF]),
        is_line l := by
      intro l hl
      simp only [List.mem_map] at hl
      obtain ⟨r, hr, rfl⟩ := hl
      exact typed_line_is_line _ (ht r hr).1 (ht r hr).2
    have hnext := record_lines_next (db_iterate parties) db.next_party_id hn hps []
      party_db_txt.next_party_id hpos
    have hlast := init_loop_line (sync_newid db.next_party_id)
      (sync_newid_is_line _ hn) []
    simp only [List.append_nil] at hlast
    simp only [party_db_txt_init, db_clear]
    rw [sync_records_flatten, init_loop_lines _ hlines, hlast, sync_newid_c_str,
      init_line_of_newid _ _ (sync_newid_recognised _ hn)]
    simp only [List.length_nil, init_loop]
    split
    · rfl
    · omega

/-- Witness of C19 (as amended): the store after creating the party "Alpha"
in the empty store. -/
theorem watermark_survives_restart_witness :
    ReachableBelowMax store_alpha_created ∧
    ∃ db1 file, party_db_txt_sync store_alpha_created true = some (true, db1, some file) ∧
      (party_db_txt_init party_db_txt (some file)).1 = true ∧
      (party_db_txt_init party_db_txt (some file)).2.next_party_id
        = store_alpha_created.next_party_id :=
  have hr : ReachableBelowMax store_alpha_created :=
    ReachableBelowMax.step empty_store store_alpha_created
      (ReachableBelowMax.step party_db_txt empty_store ReachableBelowMax.fresh
        (Step.init party_db_txt (some [])) (by intro parties hp; cases hp; decide))
      (Step.create empty_store (blank_party (-1) (bytes "Alpha")) true store_alpha_created
        (blank_party 1 (bytes "Alpha")) (by decide) (by decide))
      (by intro parties hp; cases hp; decide)
  ⟨hr, watermark_survives_restart store_alpha_created hr
    [(1, blank_party 1 (bytes "Alpha"))] rfl (by decide)⟩

/-- C19 fails as stated: after loading an empty file, creating the party
`INT_MAX` and removing it, the store is empty with `next_party_id = INT_MIN`;
the file written by sync, loaded into a new back end, gives
`next_party_id = 1`. -/
theorem watermark_lost_after_wrap :
    Reachable store_wrapped_empty ∧
    party_db_txt_sync store_wrapped_empty true
      = some (true, { store_wrapped_empty with dirty := false },
          some (bytes "-2147483648\t%newid%\n")) ∧
    (party_db_txt_init party_db_txt (some (bytes "-2147483648\t%newid%\n"))).2.next_party_id
      = 1 ∧
    (party_db_txt_init party_db_txt (some (bytes "-2147483648\t%newid%\n"))).2.next_party_id
      ≠ store_wrapped_empty.next_party_id := by
  refine ⟨?_, by decide, by decide, by decide⟩
  exact Reachable.step store_at_int_max _
    (Reachable.step empty_store _
      (Reachable.step party_db_txt empty_store Reachable.fresh
        (Step.init party_db_txt (some [])))
      (Step.create empty_store (blank_party 2147483647 (bytes "A")) true _
        (blank_party 2147483647 (bytes "A")) (by decide) (by decide)))
    (Step.remove store_at_int_max 2147483647 true _ (by decide))

/-! ## A line longer than the line buffer -/

theorem text_lines_line (body : List Nat) (hb : LF ∉ body) (rest : List Nat) :
    text_lines (body ++ LF :: rest) = (body ++ [LF]) :: text_lines rest := by
  induction body with
  | nil => simp [text_lines]
  | cons c body ih =>
    have hc : c ≠ LF := fun h => hb (by rw [h]; exact List.mem_cons_self _ _)
    have hb1 : LF ∉ body := fun h => hb (List.mem_cons_of_mem _ h)
    rw [List.cons_append, text_lines, if_neg hc, ih hb1]
    rfl

theorem text_lines_flatten (ls : List (List Nat))
    (h : ∀ l ∈ ls, ∃ body, l = body ++ [LF] ∧ LF ∉ body) :
    text_lines ls.flatten = ls := by
  induction ls with
  | nil => rfl
  | cons l ls ih =>
    obtain ⟨body, hl, hb⟩ := h l (List.mem_cons_self _ _)
    have := ih (fun x hx => h x (List.mem_cons_of_mem _ hx))
    rw [List.flatten_cons, hl, List.append_assoc, List.singleton_append,
      text_lines_line body hb, this]

theorem sync_newid_text (n : Int) :
    sync_newid n = print_int n ++ TAB :: bytes "%newid%" ++ [LF] := by
  have hb : bytes "%newid%" = [PERCENT, 110, 101, 119, 105, 100, PERCENT] := by decide
  rw [hb]
  simp [sync_newid]

theorem sync_newid_one_line (n : Int) :
    ∃ body, sync_newid n = body ++ [LF] ∧ LF ∉ body := by
  refine ⟨print_int n ++ [TAB, PERCENT, 110, 101, 119, 105, 100, PERCENT],
    by simp [sync_newid], ?_⟩
  intro h
  rcases List.mem_append.1 h with h | h
  · have := print_int_bytes n LF h
    revert this; decide
  · revert h; decide

theorem filter_record_lines (ps : List party_data)
    (hname : ∀ r ∈ ps, ∀ c ∈ r.party.name, c ≠ CR ∧ c ≠ LF) :
    (ps.map fun p => mmo_party_tostr p.party ++ [LF]).filter passes_newid_test = [] := by
  rw [List.filter_eq_nil_iff]
  intro l hl
  simp only [List.mem_map] at hl
  obtain ⟨r, hr, rfl⟩ := hl
  simp [passes_newid_test, newid_line_record_line r.party (hname r hr)]

/-- C16 (as amended): on an initialised store, when the lock is acquired
`party_db_txt_sync` returns true and writes, for each record in iteration
order, the encoding of the record and a line feed, then `next_party_id`, a
tab, `%newid%` and a line feed; the state is the one before with the dirty
flag cleared.  When the lock is not acquired it returns false, writes nothing
and keeps the state with its dirty flag.  When no stored name contains a CR
or LF, the lines of the file are exactly these record lines followed by the
last line, as many as records plus one, no record line passes the test for
the auto-increment line, and (`next_party_id` being a C int) the last line
is the only line of the file that passes it. -/
theorem sync_output (db : PartyDB_TXT) (parties : DBMap) (hdb : db.parties = some parties) :
    party_db_txt_sync db true
      = some (true, { db with dirty := false },
          some (((db_iterate parties).map (fun p => mmo_party_tostr p.party ++ [LF])
            ++ [print_int db.next_party_id ++ TAB :: bytes "%newid%" ++ [LF]]).flatten)) ∧
    party_db_txt_sync db false = some (false, db, none) ∧
    ((∀ r ∈ db_iterate parties, ∀ c ∈ r.party.name, c ≠ CR ∧ c ≠ LF) →
      text_lines (((db_iterate parties).map (fun p => mmo_party_tostr p.party ++ [LF])
          ++ [print_int db.next_party_id ++ TAB :: bytes "%newid%" ++ [LF]]).flatten)
        = (db_iterate parties).map (fun p => mmo_party_tostr p.party ++ [LF])
          ++ [print_int db.next_party_id ++ TAB :: bytes "%newid%" ++ [LF]] ∧
      (text_lines (((db_iterate parties).map (fun p => mmo_party_tostr p.party ++ [LF])
          ++ [print_int db.next_party_id ++ TAB :: bytes "%newid%" ++ [LF]]).flatten)).length
        = (db_iterate parties).length + 1 ∧
      (∀ l ∈ (db_iterate parties).map (fun p => mmo_party_tostr p.party ++ [LF]),
        passes_newid_test l = false) ∧
      (is_int db.next_party_id →
        (text_lines (((db_iterate parties).map (fun p => mmo_party_tostr p.party ++ [LF])
            ++ [print_int db.next_party_id ++ TAB :: bytes "%newid%" ++ [LF]]).flatten)).filter
          passes_newid_test
          = [print_int db.next_party_id ++ TAB :: bytes "%newid%" ++ [LF]])) := by
  refine ⟨?_, rfl, ?_⟩
  · unfold party_db_txt_sync
    simp only [hdb, Bool.true_eq_false, if_false]
    rw [sync_records_flatten, sync_newid_text]
    simp
  · intro hname
    rw [← sync_newid_text]
    have hlines : text_lines (((db_iterate parties).map
        (fun p => mmo_party_tostr p.party ++ [LF]) ++ [sync_newid db.next_party_id]).flatten)
        = (db_iterate parties).map (fun p => mmo_party_tostr p.party ++ [LF])
          ++ [sync_newid db.next_party_id] := by
      apply text_lines_flatten
      intro l hl
      rcases List.mem_append.1 hl with h | h
      · simp only [List.mem_map] at h
        obtain ⟨r, hr, rfl⟩ := h
        exact ⟨mmo_party_tostr r.party, rfl,
          fun hm => (tostr_bytes_no_break r.party (hname r hr) LF hm).1 rfl⟩
      · rw [List.mem_singleton] at h
        rw [h]
        exact sync_newid_one_line _
    have hrec := filter_record_lines (db_iterate parties) hname
    refine ⟨hlines, ?_, ?_, ?_⟩
    · rw [hlines]
      simp
    · intro l hl
      exact (List.filter_eq_nil_iff.1 hrec l hl |> fun h => by simpa using h)
    · intro hn
      have hlast : passes_newid_test (sync_newid db.next_party_id) = true := by
        simp [passes_newid_test, sync_newid_c_str, sync_newid_recognised _ hn]
      rw [hlines, List.filter_append, hrec, List.nil_append]
      simp [List.filter, hlast]

/-- Witness of C16 (as amended): the store that holds the party "Alpha"
under id 1 writes two lines, of which the last alone passes the test for the
auto-increment line. -/
theorem sync_output_witness :
    party_db_txt_sync store_alpha true
      = some (true, { store_alpha with dirty := false },
          some (bytes "1\tAlpha\t0,0\t0,0,0\t0,0,0\t0,0,0\t0,0,0\t0,0,0\t0,0,0\t0,0,0\t0,0,0\t0,0,0\t0,0,0\t0,0,0\t0,0,0\t\n2\t%newid%\n")) ∧
    party_db_txt_sync store_alpha false = some (false, store_alpha, none) ∧
    (text_lines (bytes "1\tAlpha\t0,0\t0,0,0\t0,0,0\t0,0,0\t0,0,0\t0,0,0\t0,0,0\t0,0,0\t0,0,0\t0,0,0\t0,0,0\t0,0,0\t0,0,0\t\n2\t%newid%\n")).length
      = 2 ∧
    (text_lines (bytes "1\tAlpha\t0,0\t0,0,0\t0,0,0\t0,0,0\t0,0,0\t0,0,0\t0,0,0\t0,0,0\t0,0,0\t0,0,0\t0,0,0\t0,0,0\t0,0,0\t\n2\t%newid%\n")).filter
        passes_newid_test
      = [bytes "2\t%newid%\n"] :=
  have h := sync_output store_alpha [(1, blank_party 1 (bytes "Alpha"))] rfl
  ⟨h.1.trans (by decide), h.2.1,
   Eq.trans (by decide) (h.2.2 (by decide)).2.1,
   Eq.trans (by decide) (((h.2.2 (by decide)).2.2.2 (by decide)).trans (by decide))⟩

/-- C16 fails as stated: for the store whose only party is named
`A LF 9 TAB %newid% LF B` the file written by `party_db_txt_sync` has four
lines, not the two of one record plus one, and two of its lines pass the test
for the auto-increment line; and the record line of a party named
`%newid% CR B` passes that test as well. -/
theorem sync_name_with_line_feeds :
    party_db_txt_sync store_newline_name true
      = some (true, { store_newline_name with dirty := false },
          some (bytes "1\tA\n9\t%newid%\nB\t0,0\t0,0,0\t0,0,0\t0,0,0\t0,0,0\t0,0,0\t0,0,0\t0,0,0\t0,0,0\t0,0,0\t0,0,0\t0,0,0\t0,0,0\t\n2\t%newid%\n")) ∧
    (db_iterate [(1, blank_party 1 (bytes "A\n9\t%newid%\nB"))]).length + 1 = 2 ∧
    (text_lines (bytes "1\tA\n9\t%newid%\nB\t0,0\t0,0,0\t0,0,0\t0,0,0\t0,0,0\t0,0,0\t0,0,0\t0,0,0\t0,0,0\t0,0,0\t0,0,0\t0,0,0\t0,0,0\t\n2\t%newid%\n")).length
      = 4 ∧
    (text_lines (bytes "1\tA\n9\t%newid%\nB\t0,0\t0,0,0\t0,0,0\t0,0,0\t0,0,0\t0,0,0\t0,0,0\t0,0,0\t0,0,0\t0,0,0\t0,0,0\t0,0,0\t0,0,0\t\n2\t%newid%\n")).filter
        passes_newid_test
      = [bytes "9\t%newid%\n", bytes "2\t%newid%\n"] ∧
    passes_newid_test (mmo_party_tostr (blank_party 1 (bytes "%newid%\rB")).party ++ [LF])
      = true := by
  decide

end PartyDB
